import Mathlib

/-!
The generator protoc-gen-golang-jsonshim: name derivation and shim emission.

A shallow embedding of `cmd/protoc-gen-golang-jsonshim/main.go`.

* Go strings are byte strings: `GoString` is a list of byte values, each a natural
  number (a real byte is below 256; no operation of the program leaves that range).
* `CamelCase` follows the Go loops index by index, every `s[i]` being a checked read.
* `generateFile` threads the generated file's line buffer through the `p.P` calls.
* The Go standard library (`path.Base`, `strings.Replace`) is modelled after its
  documented behaviour; the way `protogen` prints a `GoIdent` is a parameter `q` of
  `generateFile`, and `qualifiedGoIdent` is the rendering protogen uses.
-/

namespace JsonShim

/-- A Go string: the sequence of its bytes. -/
abbrev GoString := List Nat

/-- The bytes of an ASCII literal. -/
def ascii (s : String) : GoString := s.toList.map Char.toNat

/-! ## The byte classes (main.go, lines 132-140) -/

/-- Go `isASCIILower`: is `c` an ASCII lower-case letter. -/
def isASCIILower (c : Nat) : Bool := decide (97 ≤ c) && decide (c ≤ 122)

/-- Go `isASCIIDigit`: is `c` an ASCII digit. -/
def isASCIIDigit (c : Nat) : Bool := decide (48 ≤ c) && decide (c ≤ 57)

/-! ## CamelCase (main.go, lines 93-130) -/

/-- The inner loop of `CamelCase` (lines 124-127), started with index `i` and buffer `t`:
while `i+1 < len(s) && isASCIILower(s[i+1])` do `i++; t = append(t, s[i])`.
Returns the final index and buffer; `none` when a read is out of range or the fuel is used up. -/
def lowerRun (s : GoString) : Nat → Nat → GoString → Option (Nat × GoString)
  | 0, _, _ => none
  | fuel + 1, i, t =>
    if i + 1 < s.length then
      match s[i + 1]? with
      | none => none
      | some d =>
        if isASCIILower d then
          match s[i + 1]? with
          | none => none
          | some e => lowerRun s fuel (i + 1) (t ++ [e])
        else some (i, t)
    else some (i, t)

/-- The test of line 110, `c == '_' && i+1 < len(s) && isASCIILower(s[i+1])`, with Go's
left-to-right short-circuit evaluation: `s[i+1]` is read only when the first two hold. -/
def skipUnderscore (s : GoString) (i c : Nat) : Option Bool :=
  if c = 95 then
    if i + 1 < s.length then
      match s[i + 1]? with
      | none => none
      | some d => some (isASCIILower d)
    else some false
  else some false

/-- The main loop of `CamelCase` (lines 108-128), started with index `i` and buffer `t`.
Each unfolding is one test of `i < len(s)` followed by one iteration and the `i++`. -/
def scan (s : GoString) : Nat → Nat → GoString → Option GoString
  | 0, _, _ => none
  | fuel + 1, i, t =>
    if i < s.length then
      match s[i]? with
      | none => none
      | some c =>
        match skipUnderscore s i c with
        | none => none
        | some true => scan s fuel (i + 1) t
        | some false =>
          if isASCIIDigit c then scan s fuel (i + 1) (t ++ [c])
          else
            match lowerRun s s.length i (t ++ [if isASCIILower c then c ^^^ 32 else c]) with
            | none => none
            | some (j, u) => scan s fuel (j + 1) u
    else some t

/-- Go `CamelCase`. The result is `none` if the Go code would read out of range
(or the loop would not finish within `len(s)+1` tests of its condition). -/
def CamelCase (s : GoString) : Option GoString :=
  if s = [] then some []
  else
    match s[0]? with
    | none => none
    | some c =>
      if c = 95 then scan s (s.length + 1) 1 [88]
      else scan s (s.length + 1) 0 []

/-! ## The standard library functions used by FileName -/

/-- Go `path.Base`: the last element of a path. An empty path gives `"."`; trailing
slashes are removed before the last element is taken; a path of slashes only gives `"/"`. -/
def pathBase (p : GoString) : GoString :=
  if p = [] then ascii "."
  else
    let q := (p.rdropWhile (fun c => c == 47)).rtakeWhile (fun c => c != 47)
    if q = [] then ascii "/" else q

/-- Worker of `stringsReplaceAll`: `skip` bytes of a matched occurrence are still to be dropped. -/
def replaceFrom (old new : GoString) : Nat → GoString → GoString
  | _, [] => []
  | skip + 1, _ :: s => replaceFrom old new skip s
  | 0, c :: s =>
    if old.isPrefixOf (c :: s) then new ++ replaceFrom old new (old.length - 1) s
    else c :: replaceFrom old new 0 s

/-- Go `strings.Replace(s, old, new, -1)` for a non-empty `old`: every non-overlapping
occurrence of `old`, found from left to right, is replaced by `new`. -/
def stringsReplaceAll (s old new : GoString) : GoString := replaceFrom old new 0 s

/-! ## The protogen data model -/

/-- A `protogen.GoIdent`: a Go identifier and the import path of its package. -/
structure GoIdent where
  GoName : GoString
  GoImportPath : GoString
deriving DecidableEq, Repr

/-- A `protogen.Message`, as far as the generator reads it: `GoIdent.GoName`, the
`map_entry` option of its descriptor, and the nested message declarations. -/
inductive Message where
  | mk (GoName : GoString) (MapEntry : Bool) (Messages : List Message)

/-- A `protogen.File`, as far as the generator reads it. `ProtoName` is `file.Proto.GetName()`. -/
structure File where
  ProtoName : GoString
  GeneratedFilenamePrefix : GoString
  GoImportPath : GoString
  GoPackageName : GoString
  Messages : List Message

/-- One argument of `p.P`: a string (or string-typed value), or a `GoIdent`. -/
inductive Arg where
  | str (s : GoString)
  | ident (id : GoIdent)

/-- A `protogen.GeneratedFile`: its name, import path and the lines printed so far. -/
structure GeneratedFile where
  filename : GoString
  goImportPath : GoString
  lines : List GoString

/-- The text `p.P` prints for one argument; `q` is protogen's rendering of a `GoIdent`
(`QualifiedGoIdent`). -/
def Arg.render (q : GoIdent → GoString) : Arg → GoString
  | Arg.str s => s
  | Arg.ident id => q id

/-- The method `p.P(args...)`: appends one line, the arguments printed without separators. -/
def GeneratedFile.P (q : GoIdent → GoString) (p : GeneratedFile) (args : List Arg) : GeneratedFile :=
  { p with lines := p.lines ++ [(args.map (Arg.render q)).flatten] }

/-- protogen's `QualifiedGoIdent` for a generated file whose import path is `goImportPath`
(the second argument of `gen.NewGeneratedFile` at line 39): an identifier of the file's own
package is printed bare; an identifier of another package is printed as package name, dot,
name, the package name being the last element of the import path. For the two packages the
generator names, `bytes` and `github.com/golang/protobuf/jsonpb`, that element is a valid
package name and the two names differ, so protogen neither rewrites nor renumbers them. -/
def qualifiedGoIdent (goImportPath : GoString) (id : GoIdent) : GoString :=
  if id.GoImportPath = goImportPath then id.GoName
  else pathBase id.GoImportPath ++ ascii "." ++ id.GoName

/-! ## FileName and generateFile (main.go, lines 37-83) -/

/-- Lines 78-81 of `FileName`: the base name with every `.proto` removed, then every
hyphen and every dot replaced by an underscore. -/
def foldedName (file : File) : GoString :=
  let fname := pathBase file.ProtoName
  let fname := stringsReplaceAll fname (ascii ".proto") (ascii "")
  let fname := stringsReplaceAll fname (ascii "-") (ascii "_")
  let fname := stringsReplaceAll fname (ascii ".") (ascii "_")
  fname

/-- Go `FileName`. -/
def FileName (file : File) : Option GoString := CamelCase (foldedName file)

mutual
/-- The body of the loop of `process` (lines 50-65) for one message. -/
def processMessage (q : GoIdent → GoString) (marshalerName unmarshalerName : GoString)
    (p : GeneratedFile) : Message → GeneratedFile
  | Message.mk typeName mapEntry messages =>
    if mapEntry then p
    else
      let p := p.P q [Arg.str (ascii "// MarshalJSON is a custom marshaler for "), Arg.str typeName]
      let p := p.P q [Arg.str (ascii "func (this *"), Arg.str typeName,
        Arg.str (ascii ") MarshalJSON() ([]byte, error) \x7b")]
      let p := p.P q [Arg.str (ascii "str, err := "), Arg.str marshalerName,
        Arg.str (ascii ".MarshalToString(this)")]
      let p := p.P q [Arg.str (ascii "return []byte(str), err")]
      let p := p.P q [Arg.str (ascii "\x7d")]
      let p := p.P q [Arg.str (ascii "// UnmarshalJSON is a custom unmarshaler for "), Arg.str typeName]
      let p := p.P q [Arg.str (ascii "func (this *"), Arg.str typeName,
        Arg.str (ascii ") UnmarshalJSON(b []byte) error \x7b")]
      let p := p.P q [Arg.str (ascii "return "), Arg.str unmarshalerName, Arg.str (ascii ".Unmarshal("),
        Arg.ident ⟨ascii "NewReader", ascii "bytes"⟩, Arg.str (ascii "(b), this)")]
      let p := p.P q [Arg.str (ascii "\x7d")]
      process q marshalerName unmarshalerName p messages
/-- The closure `process` of `generateFile` (lines 48-67): the loop over a list of messages. -/
def process (q : GoIdent → GoString) (marshalerName unmarshalerName : GoString)
    (p : GeneratedFile) : List Message → GeneratedFile
  | [] => p
  | message :: rest =>
    process q marshalerName unmarshalerName
      (processMessage q marshalerName unmarshalerName p message) rest
end

/-- Go `generateFile`: the generated file it adds to the plugin's response. `none` when
`FileName` fails. -/
def generateFile (q : GoIdent → GoString) (file : File) : Option GeneratedFile :=
  let filename := file.GeneratedFilenamePrefix ++ ascii "_json.gen.go"
  let p : GeneratedFile := { filename := filename, goImportPath := file.GoImportPath, lines := [] }
  let p := p.P q [Arg.str (ascii "// Code generated by protoc-gen-jsonshim. DO NOT EDIT.")]
  let p := p.P q [Arg.str (ascii "package "), Arg.str file.GoPackageName]
  match FileName file with
  | none => none
  | some prefix1 =>
    let marshalerName := prefix1 ++ ascii "Marshaler"
    match FileName file with
    | none => none
    | some prefix2 =>
      let unmarshalerName := prefix2 ++ ascii "Unmarshaler"
      let p := process q marshalerName unmarshalerName p file.Messages
      let p := p.P q [Arg.str (ascii "var (")]
      let p := p.P q [Arg.str marshalerName, Arg.str (ascii " = &"),
        Arg.ident ⟨ascii "Marshaler", ascii "github.com/golang/protobuf/jsonpb"⟩, Arg.str (ascii "\x7b\x7d")]
      let p := p.P q [Arg.str unmarshalerName, Arg.str (ascii " = &"),
        Arg.ident ⟨ascii "Unmarshaler", ascii "github.com/golang/protobuf/jsonpb"⟩,
        Arg.str (ascii "\x7bAllowUnknownFields: true\x7d")]
      let p := p.P q [Arg.str (ascii ")")]
      some p


/-! ## A list-level description of CamelCase -/

/-- Upper-case form used at line 120. -/
def toUpperByte (c : Nat) : Nat := if isASCIILower c then c ^^^ 32 else c

/-- The scan as a function of the unread suffix. `inRun` holds while the bytes being read
continue a lower-case run that follows an emitted word start. -/
def camelRun : Bool → GoString → GoString
  | _, [] => []
  | inRun, c :: rest =>
    if inRun && isASCIILower c then c :: camelRun true rest
    else if c = 95 ∧ (rest.head?.map isASCIILower) = some true then camelRun false rest
    else if isASCIIDigit c then c :: camelRun false rest
    else toUpperByte c :: camelRun true rest

/-- The result of `CamelCase` as a function on lists. -/
def camel : GoString → GoString
  | [] => []
  | c :: rest => if c = 95 then 88 :: camelRun false rest else camelRun false (c :: rest)

/-! ## The specification side of the emitter -/

mutual
/-- The message with every map-entry node below it removed together with its subtree. -/
def pruneMessage : Message → Message
  | Message.mk n me ms => Message.mk n me (prune ms)
/-- The forest with every map-entry node removed together with its whole subtree. -/
def prune : List Message → List Message
  | [] => []
  | Message.mk n me ms :: rest =>
    if me then prune rest else pruneMessage (Message.mk n me ms) :: prune rest
end

mutual
/-- The depth-first pre-order listing of the type names of one tree: the root first,
then its nested messages in declared order. -/
def preorderMessage : Message → List GoString
  | Message.mk n _ ms => n :: preorder ms
/-- The depth-first pre-order listing of the type names of a forest. -/
def preorder : List Message → List GoString
  | [] => []
  | m :: rest => preorderMessage m ++ preorder rest
end

/-- The nine lines of one MarshalJSON/UnmarshalJSON method pair for the type `typeName`. -/
def methodPair (q : GoIdent → GoString) (marshalerName unmarshalerName typeName : GoString) :
    List GoString :=
  [ ascii "// MarshalJSON is a custom marshaler for " ++ typeName,
    ascii "func (this *" ++ typeName ++ ascii ") MarshalJSON() ([]byte, error) \x7b",
    ascii "str, err := " ++ marshalerName ++ ascii ".MarshalToString(this)",
    ascii "return []byte(str), err",
    ascii "\x7d",
    ascii "// UnmarshalJSON is a custom unmarshaler for " ++ typeName,
    ascii "func (this *" ++ typeName ++ ascii ") UnmarshalJSON(b []byte) error \x7b",
    ascii "return " ++ unmarshalerName ++ ascii ".Unmarshal(" ++
      q ⟨ascii "NewReader", ascii "bytes"⟩ ++ ascii "(b), this)",
    ascii "\x7d" ]

/-- The four lines that declare the two codec globals for the name prefix `namePrefix`. -/
def varBlock (q : GoIdent → GoString) (namePrefix : GoString) : List GoString :=
  [ ascii "var (",
    namePrefix ++ ascii "Marshaler" ++ ascii " = &" ++
      q ⟨ascii "Marshaler", ascii "github.com/golang/protobuf/jsonpb"⟩ ++ ascii "\x7b\x7d",
    namePrefix ++ ascii "Unmarshaler" ++ ascii " = &" ++
      q ⟨ascii "Unmarshaler", ascii "github.com/golang/protobuf/jsonpb"⟩ ++
      ascii "\x7bAllowUnknownFields: true\x7d",
    ascii ")" ]

/-- The two kinds of generated method. -/
inductive Method where
  | MarshalJSON
  | UnmarshalJSON
deriving DecidableEq, Repr

/-- The text between `pre` and `suf` in a line that begins with `pre` and ends with `suf`. -/
def between (pre suf line : GoString) : Option GoString :=
  if pre.isPrefixOf line && suf.isSuffixOf line && decide (pre.length + suf.length ≤ line.length) then
    some ((line.drop pre.length).take (line.length - pre.length - suf.length))
  else none

/-- Reads a line of generated text as a method header: the receiver type and the method. -/
def methodOfLine (line : GoString) : Option (GoString × Method) :=
  match between (ascii "func (this *") (ascii ") MarshalJSON() ([]byte, error) \x7b") line with
  | some t => some (t, Method.MarshalJSON)
  | none =>
    match between (ascii "func (this *") (ascii ") UnmarshalJSON(b []byte) error \x7b") line with
    | some t => some (t, Method.UnmarshalJSON)
    | none => none

/-- The methods declared by a generated text, in order of appearance. -/
def methodsOf (lines : List GoString) : List (GoString × Method) := lines.filterMap methodOfLine

/-- The lines of a generated file, as the specification lists them: header, package line,
one method pair per type of the pruned pre-order listing, and the var block. -/
def outputLines (q : GoIdent → GoString) (file : File) : List GoString :=
  [ascii "// Code generated by protoc-gen-jsonshim. DO NOT EDIT.",
    ascii "package " ++ file.GoPackageName] ++
  (preorder (prune file.Messages)).flatMap
    (methodPair q (camel (foldedName file) ++ ascii "Marshaler")
      (camel (foldedName file) ++ ascii "Unmarshaler")) ++
  varBlock q (camel (foldedName file))

/-- The number of methods of kind `m` declared by a generated text. -/
def countMethod (m : Method) (lines : List GoString) : Nat :=
  ((methodsOf lines).filter (fun x => decide (x.2 = m))).length

mutual
/-- The number of message nodes of a tree. -/
def sizeMessage : Message → Nat
  | Message.mk _ _ ms => 1 + size ms
/-- The number of message nodes of a forest. -/
def size : List Message → Nat
  | [] => 0
  | m :: rest => sizeMessage m + size rest
end

mutual
/-- The number of nodes of a tree that are flagged map-entry or have a map-entry ancestor;
`under` tells whether the root already has such an ancestor. -/
def excludedMessage (under : Bool) : Message → Nat
  | Message.mk _ me ms => (if under || me then 1 else 0) + excluded (under || me) ms
/-- The number of nodes of a forest that are flagged map-entry or have a map-entry ancestor. -/
def excluded (under : Bool) : List Message → Nat
  | [] => 0
  | m :: rest => excludedMessage under m + excluded under rest
end

/-- Lines that cannot be a declaration of a codec global: they begin with a lower-case
letter, or with `//`, or have at most one byte. -/
def plainLine (line : GoString) : Bool :=
  (match line.head? with
    | some c => isASCIILower c
    | none => false) ||
  (ascii "//").isPrefixOf line || decide (line.length ≤ 1)

/-- The bodies of the methods declared by a generated text: each method header with the
lines that follow it up to the closing brace. -/
def methodBodies : List GoString → List ((GoString × Method) × List GoString)
  | [] => []
  | line :: rest =>
    match methodOfLine line with
    | some m => (m, rest.takeWhile (fun l => l != ascii "\x7d")) :: methodBodies rest
    | none => methodBodies rest

/-- The two method bodies the specification gives for the type `typeName`: MarshalJSON calls
`MarshalToString` on `marshalerName`, UnmarshalJSON calls `Unmarshal` on `unmarshalerName`. -/
def expectedBodies (q : GoIdent → GoString) (marshalerName unmarshalerName typeName : GoString) :
    List ((GoString × Method) × List GoString) :=
  [ ((typeName, Method.MarshalJSON),
      [ascii "str, err := " ++ marshalerName ++ ascii ".MarshalToString(this)",
       ascii "return []byte(str), err"]),
    ((typeName, Method.UnmarshalJSON),
      [ascii "return " ++ unmarshalerName ++ ascii ".Unmarshal(" ++
        q ⟨ascii "NewReader", ascii "bytes"⟩ ++ ascii "(b), this)"]) ]

/-! ## The specification side of the name derivation -/

/-- The number of positions of `s` at which `old` occurs. -/
def occurrences (old s : GoString) : Nat := (s.tails.filter (fun t => old.isPrefixOf t)).length

/-- An ASCII upper-case letter. -/
def isASCIIUpper (c : Nat) : Bool := decide (65 ≤ c) && decide (c ≤ 90)

/-- An ASCII letter. -/
def isASCIILetter (c : Nat) : Bool := isASCIIUpper c || isASCIILower c

/-- A byte of a plain schema file name: an ASCII letter, a digit, a hyphen or a dot. -/
def isNameByte (c : Nat) : Bool := isASCIILetter c || isASCIIDigit c || c == 45 || c == 46

/-- A byte of an identifier: an ASCII letter, a digit or an underscore. -/
def isIdentByte (c : Nat) : Bool := isASCIILetter c || isASCIIDigit c || c == 95

/-- A capitalized identifier fragment: non-empty, first byte an ASCII upper-case letter,
every byte an ASCII letter, a digit or an underscore. -/
def isCapitalizedIdent (s : GoString) : Bool :=
  match s with
  | [] => false
  | c :: _ => isASCIIUpper c && s.all isIdentByte

/-- No lower-case ASCII letter stands immediately after an underscore or a digit. -/
def noLowerAfterSeparator : GoString → Bool
  | [] => true
  | c :: rest =>
    (match rest.head? with
      | some d => !((c == 95 || isASCIIDigit c) && isASCIILower d)
      | none => true) &&
    noLowerAfterSeparator rest

/-- The shape of a `CamelCase` result: it does not begin with an underscore or a lower-case
letter, and no lower-case letter stands immediately after an underscore or a digit. -/
def isCamelCased (r : GoString) : Bool :=
  (match r.head? with
    | some c => c != 95 && !isASCIILower c
    | none => true) &&
  noLowerAfterSeparator r

/-- No lower-case ASCII letter stands immediately after a digit. -/
def noLowerAfterDigit : GoString → Bool
  | [] => true
  | c :: rest =>
    (match rest.head? with
      | some d => !(isASCIIDigit c && isASCIILower d)
      | none => true) &&
    noLowerAfterDigit rest

/-- PascalCase as the specification words it: only ASCII letters and digits, the first
byte an upper-case letter. -/
def isPascalCase (s : GoString) : Bool :=
  (match s.head? with
    | some c => isASCIIUpper c
    | none => false) &&
  s.all (fun c => isASCIILetter c || isASCIIDigit c)

/-- The pieces joined with the separator `sep` between them. -/
def joinWith (sep : GoString) : List GoString → GoString
  | [] => []
  | [p] => p
  | p :: q :: ps => p ++ sep ++ joinWith sep (q :: ps)

/-- The value of `fname` after line 79 of `FileName`: the base name after the removal of
the extension. -/
def extensionRemoved (file : File) : GoString :=
  stringsReplaceAll (pathBase file.ProtoName) (ascii ".proto") (ascii "")

/-! ## Sample inputs -/

/-- The schema file of the end-to-end scenario: `widgets.proto` with the top-level message
`Widget`, its nested message `WidgetMeta` and the map-entry type `Widget_LabelsEntry`. -/
def widgetsFile (generatedFilenamePrefix goImportPath goPackageName : GoString) : File :=
  { ProtoName := ascii "widgets.proto",
    GeneratedFilenamePrefix := generatedFilenamePrefix,
    GoImportPath := goImportPath,
    GoPackageName := goPackageName,
    Messages :=
      [Message.mk (ascii "Widget") false
        [Message.mk (ascii "WidgetMeta") false [],
         Message.mk (ascii "Widget_LabelsEntry") true []]] }

/-- A rendering of identifiers that qualifies each with the last element of its import
path, as for an identifier of another package: `jsonpb.Marshaler`, `bytes.NewReader`. -/
def qualifyByBase (id : GoIdent) : GoString := pathBase id.GoImportPath ++ ascii "." ++ id.GoName

/-- The schema file of the name-folding scenario: only its name, `my-file.proto`, matters. -/
def myFile : File :=
  { ProtoName := ascii "my-file.proto", GeneratedFilenamePrefix := ascii "my-file",
    GoImportPath := ascii "example.com/my", GoPackageName := ascii "my", Messages := [] }

/-- A schema file with the empty name. -/
def emptyNameFile : File :=
  { ProtoName := ascii "", GeneratedFilenamePrefix := ascii "", GoImportPath := ascii "",
    GoPackageName := ascii "", Messages := [] }

/-- A schema file whose name begins with a digit. -/
def digitNameFile : File :=
  { ProtoName := ascii "1.proto", GeneratedFilenamePrefix := ascii "1",
    GoImportPath := ascii "example.com/one", GoPackageName := ascii "one", Messages := [] }

/-- A schema file whose name is the extension alone. -/
def extensionOnlyFile : File :=
  { ProtoName := ascii ".proto", GeneratedFilenamePrefix := ascii "",
    GoImportPath := ascii "example.com/none", GoPackageName := ascii "none", Messages := [] }

/-- A schema file in whose name the removal of `.proto` joins the text around it into a
new `.proto`. -/
def dottedNameFile : File :=
  { ProtoName := ascii "a.pro.prototo", GeneratedFilenamePrefix := ascii "a.pro.prototo",
    GoImportPath := ascii "example.com/a", GoPackageName := ascii "a", Messages := [] }

/-- A schema file generated into the package `github.com/golang/protobuf/jsonpb` itself,
with one message. -/
def jsonpbFile : File :=
  { ProtoName := ascii "j.proto", GeneratedFilenamePrefix := ascii "j",
    GoImportPath := ascii "github.com/golang/protobuf/jsonpb", GoPackageName := ascii "jsonpb",
    Messages := [Message.mk (ascii "J") false []] }

/-! ## CamelCase never fails: the index-based loops compute `camel` -/

theorem camelRun_true (l : GoString) :
    camelRun true l = l.takeWhile isASCIILower ++ camelRun false (l.dropWhile isASCIILower) := by
  induction l with
  | nil => simp [camelRun]
  | cons c rest ih =>
    by_cases h : isASCIILower c = true
    · simp [camelRun, h, ih]
    · simp [camelRun, h]

theorem lowerRun_eq (s : GoString) : ∀ (fuel i : Nat) (t : GoString), i < s.length →
    s.length - i ≤ fuel →
    lowerRun s fuel i t = some (i + ((s.drop (i + 1)).takeWhile isASCIILower).length,
      t ++ (s.drop (i + 1)).takeWhile isASCIILower) := by
  intro fuel
  induction fuel with
  | zero => intro i t hi hf; omega
  | succ fuel ih =>
    intro i t hi hf
    unfold lowerRun
    by_cases h1 : i + 1 < s.length
    · rw [if_pos h1]
      have hd := List.drop_eq_getElem_cons h1
      rw [List.getElem?_eq_getElem h1]
      by_cases hl : isASCIILower s[i + 1] = true
      · simp only [hl, if_true]
        rw [ih (i + 1) _ h1 (by omega), hd, List.takeWhile_cons_of_pos hl]
        simp only [List.length_cons, List.append_assoc, List.singleton_append]
        congr 2
        omega
      · simp only [hl]
        rw [hd, List.takeWhile_cons_of_neg hl]
        simp
    · rw [if_neg h1]
      have : s.drop (i + 1) = [] := List.drop_eq_nil_of_le (by omega)
      simp [this]

theorem drop_length_takeWhile (p : Nat → Bool) (l : GoString) :
    l.drop (l.takeWhile p).length = l.dropWhile p := by
  induction l with
  | nil => simp
  | cons c rest ih =>
    by_cases h : p c = true
    · simp [List.takeWhile_cons_of_pos h, List.dropWhile_cons_of_pos h, ih]
    · simp [List.takeWhile_cons_of_neg h, List.dropWhile_cons_of_neg h]

theorem length_takeWhile_le' (p : Nat → Bool) (l : GoString) :
    (l.takeWhile p).length ≤ l.length := by
  induction l with
  | nil => simp
  | cons c rest ih =>
    by_cases h : p c = true
    · simp [List.takeWhile_cons_of_pos h, ih]
    · simp [List.takeWhile_cons_of_neg h]

theorem skipUnderscore_eq (s : GoString) (i c : Nat) :
    skipUnderscore s i c =
      some (decide (c = 95 ∧ ((s.drop (i + 1)).head?.map isASCIILower) = some true)) := by
  unfold skipUnderscore
  by_cases hc : c = 95
  · rw [if_pos hc]
    by_cases h1 : i + 1 < s.length
    · rw [if_pos h1, List.getElem?_eq_getElem h1, List.drop_eq_getElem_cons h1]
      simp only [List.head?_cons, Option.map_some', hc, true_and, Option.some.injEq]
      cases isASCIILower s[i + 1] <;> simp
    · rw [if_neg h1, List.drop_eq_nil_of_le (by omega)]
      simp
  · rw [if_neg hc]
    simp [hc]

theorem scan_eq (s : GoString) : ∀ (fuel i : Nat) (t : GoString), i ≤ s.length →
    s.length - i < fuel → scan s fuel i t = some (t ++ camelRun false (s.drop i)) := by
  intro fuel
  induction fuel with
  | zero => intro i t hi hf; omega
  | succ fuel ih =>
    intro i t hi hf
    unfold scan
    by_cases h1 : i < s.length
    · rw [if_pos h1, List.getElem?_eq_getElem h1]
      have hd := List.drop_eq_getElem_cons h1
      simp only [skipUnderscore_eq]
      rw [hd, camelRun]
      by_cases hs : s[i] = 95 ∧ ((s.drop (i + 1)).head?.map isASCIILower) = some true
      · simp only [hs, and_self, decide_True, Bool.false_and, if_true]
        rw [ih (i + 1) t (by omega) (by omega)]
        simp
      · simp only [hs, decide_False, Bool.false_and, if_false]
        by_cases hg : isASCIIDigit s[i] = true
        · simp only [hg, if_true]
          rw [ih (i + 1) _ (by omega) (by omega)]
          simp
        · simp only [hg, Bool.false_eq_true, if_false]
          rw [lowerRun_eq s s.length i _ h1 (by omega)]
          simp only []
          have hk : ((s.drop (i + 1)).takeWhile isASCIILower).length ≤ (s.drop (i + 1)).length :=
            length_takeWhile_le' isASCIILower _
          rw [List.length_drop] at hk
          rw [ih _ _ (by omega) (by omega), camelRun_true]
          have hdd : s.drop (i + ((s.drop (i + 1)).takeWhile isASCIILower).length + 1) =
              (s.drop (i + 1)).dropWhile isASCIILower := by
            rw [← drop_length_takeWhile isASCIILower (s.drop (i + 1)), List.drop_drop]
            congr 1
            omega
          rw [hdd]
          simp [toUpperByte]
    · rw [if_neg h1]
      have : s.drop i = [] := List.drop_eq_nil_of_le (by omega)
      simp [this, camelRun]

/-- `CamelCase` never fails, and its result is the list-level function `camel`. -/
theorem CamelCase_eq (s : GoString) : CamelCase s = some (camel s) := by
  unfold CamelCase
  cases s with
  | nil => simp [camel]
  | cons c rest =>
    simp only [List.getElem?_cons_zero, List.length_cons]
    rw [if_neg (by simp)]
    by_cases hc : c = 95
    · rw [if_pos hc, scan_eq _ _ _ _ (by simp) (by simp only [List.length_cons]; omega)]
      simp [camel, hc]
    · rw [if_neg hc, scan_eq _ _ _ _ (by simp) (by simp only [List.length_cons]; omega)]
      simp [camel, hc]

/-! ## The emitter -/

theorem preorder_prune_cons (m : Message) (rest : List Message) :
    preorder (prune (m :: rest)) = preorder (prune [m]) ++ preorder (prune rest) := by
  cases m with
  | mk n me ms =>
    cases me <;> simp [prune, preorder]

mutual
theorem processMessage_eq (q : GoIdent → GoString) (mn un : GoString) :
    ∀ (m : Message) (p : GeneratedFile),
      processMessage q mn un p m =
        { p with lines := p.lines ++ (preorder (prune [m])).flatMap (methodPair q mn un) }
  | Message.mk n me ms, p => by
    cases me with
    | true => simp [processMessage, prune, preorder]
    | false =>
      simp only [processMessage, Bool.false_eq_true, if_false]
      rw [process_eq q mn un ms]
      simp [prune, pruneMessage, preorder, preorderMessage, methodPair, GeneratedFile.P, Arg.render]
theorem process_eq (q : GoIdent → GoString) (mn un : GoString) :
    ∀ (ms : List Message) (p : GeneratedFile),
      process q mn un p ms =
        { p with lines := p.lines ++ (preorder (prune ms)).flatMap (methodPair q mn un) }
  | [], p => by simp [process, prune, preorder]
  | m :: rest, p => by
    rw [process, processMessage_eq q mn un m, process_eq q mn un rest, preorder_prune_cons m rest]
    simp [List.flatMap_append]
end

theorem generateFile_eq (q : GoIdent → GoString) (file : File) :
    generateFile q file = some
      { filename := file.GeneratedFilenamePrefix ++ ascii "_json.gen.go",
        goImportPath := file.GoImportPath,
        lines := outputLines q file } := by
  simp [generateFile, FileName, CamelCase_eq, process_eq, GeneratedFile.P, Arg.render, varBlock,
    outputLines]

/-! ## Reading the generated text -/

theorem ascii_func : ascii "func (this *" = [102, 117, 110, 99, 32, 40, 116, 104, 105, 115, 32, 42] := by decide

theorem ascii_marshalDoc : ascii "// MarshalJSON is a custom marshaler for " = [47, 47, 32, 77, 97, 114, 115, 104, 97, 108, 74, 83, 79, 78, 32, 105, 115, 32, 97, 32, 99, 117, 115, 116, 111, 109, 32, 109, 97, 114, 115, 104, 97, 108, 101, 114, 32, 102, 111, 114, 32] := by decide

theorem ascii_unmarshalDoc : ascii "// UnmarshalJSON is a custom unmarshaler for " = [47, 47, 32, 85, 110, 109, 97, 114, 115, 104, 97, 108, 74, 83, 79, 78, 32, 105, 115, 32, 97, 32, 99, 117, 115, 116, 111, 109, 32, 117, 110, 109, 97, 114, 115, 104, 97, 108, 101, 114, 32, 102, 111, 114, 32] := by decide

theorem ascii_strErr : ascii "str, err := " = [115, 116, 114, 44, 32, 101, 114, 114, 32, 58, 61, 32] := by decide

theorem ascii_returnBytes : ascii "return []byte(str), err" = [114, 101, 116, 117, 114, 110, 32, 91, 93, 98, 121, 116, 101, 40, 115, 116, 114, 41, 44, 32, 101, 114, 114] := by decide

theorem ascii_return : ascii "return " = [114, 101, 116, 117, 114, 110, 32] := by decide

theorem ascii_closeBrace : ascii "\x7d" = [125] := by decide

theorem ascii_package : ascii "package " = [112, 97, 99, 107, 97, 103, 101, 32] := by decide

theorem ascii_var : ascii "var (" = [118, 97, 114, 32, 40] := by decide

theorem ascii_closeParen : ascii ")" = [41] := by decide

theorem ascii_Marshaler : ascii "Marshaler" = [77, 97, 114, 115, 104, 97, 108, 101, 114] := by decide

theorem ascii_Unmarshaler : ascii "Unmarshaler" = [85, 110, 109, 97, 114, 115, 104, 97, 108, 101, 114] := by decide

theorem between_append (pre suf t : GoString) : between pre suf (pre ++ t ++ suf) = some t := by
  unfold between
  have h1 : pre.isPrefixOf (pre ++ t ++ suf) = true := by
    rw [List.isPrefixOf_iff_prefix, List.append_assoc]
    exact List.prefix_append _ _
  have h2 : suf.isSuffixOf (pre ++ t ++ suf) = true := by
    rw [List.isSuffixOf_iff_suffix]
    exact List.suffix_append _ _
  have h3 : pre.length + suf.length ≤ (pre ++ t ++ suf).length := by
    simp only [List.length_append]; omega
  rw [h1, h2, decide_eq_true h3]
  simp only [Bool.and_self, if_true, List.append_assoc, List.drop_left, List.length_append]
  congr 1
  have : pre.length + (t.length + suf.length) - pre.length - suf.length = t.length := by omega
  rw [this, List.take_left]

theorem between_of_not_prefix (pre suf line : GoString) (h : pre.isPrefixOf line = false) :
    between pre suf line = none := by
  simp [between, h]

theorem between_of_not_suffix (pre suf line : GoString) (h : suf.isSuffixOf line = false) :
    between pre suf line = none := by
  simp [between, h]

theorem not_func_of_head (line : GoString) (c : Nat) (h : line.head? = some c) (hc : c ≠ 102) :
    (ascii "func (this *").isPrefixOf line = false := by
  cases line with
  | nil => simp at h
  | cons d rest =>
    simp only [List.head?_cons, Option.some.injEq] at h
    subst h
    simp [ascii_func, List.isPrefixOf, hc.symm]

theorem methodOfLine_of_not_func (line : GoString)
    (h : (ascii "func (this *").isPrefixOf line = false) : methodOfLine line = none := by
  simp [methodOfLine, between_of_not_prefix _ _ _ h]

theorem methodOfLine_marshal (t : GoString) :
    methodOfLine (ascii "func (this *" ++ t ++ ascii ") MarshalJSON() ([]byte, error) \x7b") =
      some (t, Method.MarshalJSON) := by
  unfold methodOfLine
  rw [between_append]

theorem methodOfLine_unmarshal (t : GoString) :
    methodOfLine (ascii "func (this *" ++ t ++ ascii ") UnmarshalJSON(b []byte) error \x7b") =
      some (t, Method.UnmarshalJSON) := by
  have hns : (ascii ") MarshalJSON() ([]byte, error) \x7b").isSuffixOf
      (ascii "func (this *" ++ t ++ ascii ") UnmarshalJSON(b []byte) error \x7b") = false := by
    rw [Bool.eq_false_iff]
    intro hs
    rw [List.isSuffixOf_iff_suffix] at hs
    obtain ⟨u, hu⟩ := hs
    have := (List.append_inj' hu (by decide)).2
    revert this
    decide
  unfold methodOfLine
  rw [between_of_not_suffix _ _ _ hns, between_append]

theorem methodsOf_append (a b : List GoString) : methodsOf (a ++ b) = methodsOf a ++ methodsOf b := by
  simp [methodsOf, List.filterMap_append]

theorem methodsOf_methodPair (q : GoIdent → GoString) (mn un t : GoString) :
    methodsOf (methodPair q mn un t) = [(t, Method.MarshalJSON), (t, Method.UnmarshalJSON)] := by
  have h1 : methodOfLine (ascii "// MarshalJSON is a custom marshaler for " ++ t) = none :=
    methodOfLine_of_not_func _ (not_func_of_head _ 47 (by simp [ascii_marshalDoc]) (by decide))
  have h2 : methodOfLine (ascii "str, err := " ++ mn ++ ascii ".MarshalToString(this)") = none :=
    methodOfLine_of_not_func _ (not_func_of_head _ 115 (by simp [ascii_strErr]) (by decide))
  have h3 : methodOfLine (ascii "return []byte(str), err") = none := by decide
  have h4 : methodOfLine (ascii "\x7d") = none := by decide
  have h5 : methodOfLine (ascii "// UnmarshalJSON is a custom unmarshaler for " ++ t) = none :=
    methodOfLine_of_not_func _ (not_func_of_head _ 47 (by simp [ascii_unmarshalDoc]) (by decide))
  have h6 : methodOfLine (ascii "return " ++ un ++ ascii ".Unmarshal(" ++
      q ⟨ascii "NewReader", ascii "bytes"⟩ ++ ascii "(b), this)") = none :=
    methodOfLine_of_not_func _ (not_func_of_head _ 114 (by simp [ascii_return]) (by decide))
  simp only [methodsOf, methodPair, List.filterMap_cons, List.filterMap_nil, h1, h2, h3, h4, h5, h6,
    methodOfLine_marshal, methodOfLine_unmarshal]

theorem methodsOf_flatMap_methodPair (q : GoIdent → GoString) (mn un : GoString)
    (names : List GoString) :
    methodsOf (names.flatMap (methodPair q mn un)) =
      names.flatMap (fun t => [(t, Method.MarshalJSON), (t, Method.UnmarshalJSON)]) := by
  induction names with
  | nil => simp [methodsOf]
  | cons t rest ih =>
    simp only [List.flatMap_cons, methodsOf_append, methodsOf_methodPair, ih]

/-! ## The first byte of a CamelCase result -/

theorem xor_32_of_lower {c : Nat} (h : isASCIILower c = true) : c ^^^ 32 = c - 32 := by
  simp only [isASCIILower, Bool.and_eq_true, decide_eq_true_eq] at h
  obtain ⟨h1, h2⟩ := h
  interval_cases c <;> rfl

theorem toUpperByte_not_lower (c : Nat) : isASCIILower (toUpperByte c) = false := by
  unfold toUpperByte
  by_cases h : isASCIILower c = true
  · rw [if_pos h, xor_32_of_lower h]
    simp only [isASCIILower, Bool.and_eq_true, decide_eq_true_eq] at h
    simp only [isASCIILower, Bool.and_eq_false_iff, decide_eq_false_iff_not]
    omega
  · rw [if_neg h]
    simpa using h

theorem toUpperByte_ne_underscore {c : Nat} (h : c ≠ 95) : toUpperByte c ≠ 95 := by
  unfold toUpperByte
  by_cases hl : isASCIILower c = true
  · rw [if_pos hl, xor_32_of_lower hl]
    simp only [isASCIILower, Bool.and_eq_true, decide_eq_true_eq] at hl
    omega
  · rw [if_neg hl]
    exact h

theorem digit_not_lower {c : Nat} (h : isASCIIDigit c = true) : isASCIILower c = false := by
  simp only [isASCIIDigit, Bool.and_eq_true, decide_eq_true_eq] at h
  simp only [isASCIILower, Bool.and_eq_false_iff, decide_eq_false_iff_not]
  omega

theorem camel_cons (c : Nat) (rest : GoString) :
    camel (c :: rest) =
      if c = 95 then 88 :: camelRun false rest
      else if isASCIIDigit c then c :: camelRun false rest
      else toUpperByte c :: camelRun true rest := by
  by_cases hc : c = 95
  · simp [camel, hc]
  · simp [camel, camelRun, hc]

/-- The first byte of a `camel` result is neither a lower-case letter nor an underscore. -/
theorem camel_head (s : GoString) (c : Nat) (h : (camel s).head? = some c) :
    isASCIILower c = false ∧ c ≠ 95 := by
  cases s with
  | nil => simp [camel] at h
  | cons d rest =>
    rw [camel_cons] at h
    by_cases hd : d = 95
    · rw [if_pos hd] at h
      simp only [List.head?_cons, Option.some.injEq] at h
      subst h
      decide
    · rw [if_neg hd] at h
      by_cases hg : isASCIIDigit d = true
      · rw [if_pos hg] at h
        simp only [List.head?_cons, Option.some.injEq] at h
        subst h
        exact ⟨digit_not_lower hg, hd⟩
      · rw [if_neg hg] at h
        simp only [List.head?_cons, Option.some.injEq] at h
        subst h
        exact ⟨toUpperByte_not_lower d, toUpperByte_ne_underscore hd⟩

/-- A line that starts with a `camel` result followed by an upper-case letter does not
start like a method header. -/
theorem not_func_camel_append (s rest : GoString) (u : Nat) (hu : isASCIILower u = false) :
    (ascii "func (this *").isPrefixOf (camel s ++ u :: rest) = false := by
  cases hP : camel s with
  | nil =>
    refine not_func_of_head _ u (by simp) ?_
    intro h; subst h; revert hu; decide
  | cons c tl =>
    have hc := (camel_head s c (by simp [hP])).1
    refine not_func_of_head _ c (by simp) ?_
    intro h; subst h; revert hc; decide

theorem methodsOf_varBlock (q : GoIdent → GoString) (s : GoString) :
    methodsOf (varBlock q (camel s)) = [] := by
  have h1 : methodOfLine (ascii "var (") = none := by decide
  have h2 : methodOfLine (camel s ++ ascii "Marshaler" ++ ascii " = &" ++
      q ⟨ascii "Marshaler", ascii "github.com/golang/protobuf/jsonpb"⟩ ++ ascii "\x7b\x7d") = none := by
    apply methodOfLine_of_not_func
    have := not_func_camel_append s (ascii "arshaler" ++ ascii " = &" ++
      q ⟨ascii "Marshaler", ascii "github.com/golang/protobuf/jsonpb"⟩ ++ ascii "\x7b\x7d") 77 (by decide)
    simpa [ascii_Marshaler, ascii] using this
  have h3 : methodOfLine (camel s ++ ascii "Unmarshaler" ++ ascii " = &" ++
      q ⟨ascii "Unmarshaler", ascii "github.com/golang/protobuf/jsonpb"⟩ ++
      ascii "\x7bAllowUnknownFields: true\x7d") = none := by
    apply methodOfLine_of_not_func
    have := not_func_camel_append s (ascii "nmarshaler" ++ ascii " = &" ++
      q ⟨ascii "Unmarshaler", ascii "github.com/golang/protobuf/jsonpb"⟩ ++
      ascii "\x7bAllowUnknownFields: true\x7d") 85 (by decide)
    simpa [ascii_Unmarshaler, ascii] using this
  have h4 : methodOfLine (ascii ")") = none := by decide
  simp only [methodsOf, varBlock, List.filterMap_cons, List.filterMap_nil, h1, h2, h3, h4]

theorem methodsOf_header (pkg : GoString) :
    methodsOf [ascii "// Code generated by protoc-gen-jsonshim. DO NOT EDIT.",
      ascii "package " ++ pkg] = [] := by
  have h1 : methodOfLine (ascii "// Code generated by protoc-gen-jsonshim. DO NOT EDIT.") = none := by
    decide
  have h2 : methodOfLine (ascii "package " ++ pkg) = none :=
    methodOfLine_of_not_func _ (not_func_of_head _ 112 (by simp [ascii_package]) (by decide))
  simp only [methodsOf, List.filterMap_cons, List.filterMap_nil, h1, h2]

theorem methodsOf_outputLines (q : GoIdent → GoString) (file : File) :
    methodsOf (outputLines q file) =
      (preorder (prune file.Messages)).flatMap
        (fun t => [(t, Method.MarshalJSON), (t, Method.UnmarshalJSON)]) := by
  unfold outputLines
  rw [methodsOf_append, methodsOf_append, methodsOf_header, methodsOf_flatMap_methodPair,
    methodsOf_varBlock]
  simp

/-! ## Where the bytes of a derived name come from -/

theorem mem_camelRun : ∀ (l : GoString) (b : Bool) (x : Nat), x ∈ camelRun b l →
    ∃ c ∈ l, x = c ∨ x = toUpperByte c := by
  intro l
  induction l with
  | nil => intro b x h; simp [camelRun] at h
  | cons c rest ih =>
    intro b x h
    have lift : (∃ d ∈ rest, x = d ∨ x = toUpperByte d) →
        ∃ d ∈ c :: rest, x = d ∨ x = toUpperByte d := by
      rintro ⟨d, hd, hx⟩
      exact ⟨d, List.mem_cons_of_mem _ hd, hx⟩
    rw [camelRun] at h
    split_ifs at h
    · rcases List.mem_cons.1 h with h | h
      · exact ⟨c, List.mem_cons_self _ _, Or.inl h⟩
      · exact lift (ih _ _ h)
    · exact lift (ih _ _ h)
    · rcases List.mem_cons.1 h with h | h
      · exact ⟨c, List.mem_cons_self _ _, Or.inl h⟩
      · exact lift (ih _ _ h)
    · rcases List.mem_cons.1 h with h | h
      · exact ⟨c, List.mem_cons_self _ _, Or.inr h⟩
      · exact lift (ih _ _ h)

theorem mem_camel (s : GoString) (x : Nat) (h : x ∈ camel s) :
    x = 88 ∨ ∃ c ∈ s, x = c ∨ x = toUpperByte c := by
  cases s with
  | nil => simp [camel] at h
  | cons c rest =>
    rw [camel] at h
    split_ifs at h
    · rcases List.mem_cons.1 h with h | h
      · exact Or.inl h
      · obtain ⟨d, hd, hx⟩ := mem_camelRun _ _ _ h
        exact Or.inr ⟨d, List.mem_cons_of_mem _ hd, hx⟩
    · exact Or.inr (mem_camelRun _ _ _ h)

theorem mem_replaceFrom (old new : GoString) : ∀ (s : GoString) (k x : Nat),
    x ∈ replaceFrom old new k s → x ∈ s ∨ x ∈ new := by
  intro s
  induction s with
  | nil => intro k x h; simp [replaceFrom] at h
  | cons c rest ih =>
    intro k x h
    cases k with
    | succ k =>
      rw [replaceFrom] at h
      rcases ih _ _ h with h | h
      · exact Or.inl (List.mem_cons_of_mem _ h)
      · exact Or.inr h
    | zero =>
      rw [replaceFrom] at h
      split_ifs at h
      · rcases List.mem_append.1 h with h | h
        · exact Or.inr h
        · rcases ih _ _ h with h | h
          · exact Or.inl (List.mem_cons_of_mem _ h)
          · exact Or.inr h
      · rcases List.mem_cons.1 h with h | h
        · exact Or.inl (h ▸ List.mem_cons_self _ _)
        · rcases ih _ _ h with h | h
          · exact Or.inl (List.mem_cons_of_mem _ h)
          · exact Or.inr h

theorem mem_stringsReplaceAll (s old new : GoString) (x : Nat)
    (h : x ∈ stringsReplaceAll s old new) : x ∈ s ∨ x ∈ new :=
  mem_replaceFrom old new s 0 x h

/-- A base name is `"/"`, or contains no slash. -/
theorem pathBase_slash (p : GoString) : pathBase p = [47] ∨ 47 ∉ pathBase p := by
  unfold pathBase
  by_cases h1 : p = []
  · rw [if_pos h1]
    right; decide
  · rw [if_neg h1]
    simp only []
    by_cases h2 : (p.rdropWhile (fun c => c == 47)).rtakeWhile (fun c => c != 47) = []
    · rw [if_pos h2]
      left; decide
    · rw [if_neg h2]
      right
      intro hm
      have := List.mem_takeWhile_imp (List.mem_reverse.1 (by simpa [List.rtakeWhile] using hm))
      simp at this

theorem toUpperByte_eq_of_not_letter {c x : Nat} (hx : x < 65 ∨ 122 < x)
    (h : x = toUpperByte c) : x = c := by
  unfold toUpperByte at h
  by_cases hl : isASCIILower c = true
  · rw [if_pos hl, xor_32_of_lower hl] at h
    simp only [isASCIILower, Bool.and_eq_true, decide_eq_true_eq] at hl
    omega
  · rw [if_neg hl] at h
    exact h

/-- The name prefix of a file is `"/"`, or contains no slash. -/
theorem camel_foldedName_slash (file : File) :
    camel (foldedName file) = [47] ∨ 47 ∉ camel (foldedName file) := by
  unfold foldedName
  rcases pathBase_slash file.ProtoName with h | h
  · left
    rw [h]
    decide
  · right
    intro hm
    rcases mem_camel _ _ hm with h88 | ⟨c, hc, hx⟩
    · omega
    · have hc47 : c = 47 := by
        rcases hx with hx | hx
        · exact hx.symm
        · exact (toUpperByte_eq_of_not_letter (Or.inl (by decide)) hx).symm
      subst hc47
      rcases mem_stringsReplaceAll _ _ _ _ hc with h3 | h3
      · rcases mem_stringsReplaceAll _ _ _ _ h3 with h2 | h2
        · rcases mem_stringsReplaceAll _ _ _ _ h2 with h1 | h1
          · exact h h1
          · revert h1; decide
        · revert h2; decide
      · revert h3; decide

/-! ## The declaration lines differ from every other line -/

theorem head?_camel_append (s rest : GoString) (u d : Nat) (hu : isASCIILower u = false)
    (h : (camel s ++ u :: rest).head? = some d) : isASCIILower d = false := by
  cases hP : camel s with
  | nil =>
    rw [hP] at h
    simp only [List.nil_append, List.head?_cons, Option.some.injEq] at h
    exact h ▸ hu
  | cons c tl =>
    rw [hP] at h
    simp only [List.cons_append, List.head?_cons, Option.some.injEq] at h
    exact h ▸ (camel_head s c (by simp [hP])).1

/-- A declaration line, a name prefix followed by text that starts with an upper-case
letter, is not a plain line. -/
theorem plainLine_decl (file : File) (u v : Nat) (rest : GoString)
    (hu : isASCIILower u = false) (hu47 : u ≠ 47) :
    plainLine (camel (foldedName file) ++ u :: v :: rest) = false := by
  unfold plainLine
  simp only [Bool.or_eq_false_iff]
  refine ⟨⟨?_, ?_⟩, ?_⟩
  · cases hh : (camel (foldedName file) ++ u :: v :: rest).head? with
    | none => rfl
    | some d => exact head?_camel_append _ _ u d hu hh
  · rcases camel_foldedName_slash file with h | h
    · rw [h]
      simp [ascii, List.isPrefixOf, hu47.symm]
    · cases hP : camel (foldedName file) with
      | nil => simp [ascii, List.isPrefixOf, hu47.symm]
      | cons c tl =>
        have hc : c ≠ 47 := by
          intro hc
          apply h
          rw [hP, hc]
          exact List.mem_cons_self _ _
        simp [ascii, List.isPrefixOf, hc.symm]
  · simp only [List.length_append, List.length_cons, decide_eq_false_iff_not]
    omega

theorem plainLine_methodPair (q : GoIdent → GoString) (mn un t line : GoString)
    (h : line ∈ methodPair q mn un t) : plainLine line = true := by
  simp only [methodPair, List.mem_cons, List.mem_singleton, List.not_mem_nil, or_false] at h
  rcases h with h | h | h | h | h | h | h | h | h <;> subst h
  · simp [plainLine, ascii_marshalDoc, ascii, List.isPrefixOf]
  · simp [plainLine, ascii_func, isASCIILower]
  · simp [plainLine, ascii_strErr, isASCIILower]
  · decide
  · decide
  · simp [plainLine, ascii_unmarshalDoc, ascii, List.isPrefixOf]
  · simp [plainLine, ascii_func, isASCIILower]
  · simp [plainLine, ascii_return, isASCIILower]
  · decide

theorem plainLine_header (pkg line : GoString)
    (h : line ∈ [ascii "// Code generated by protoc-gen-jsonshim. DO NOT EDIT.",
      ascii "package " ++ pkg]) : plainLine line = true := by
  simp only [List.mem_cons, List.mem_singleton, List.not_mem_nil, or_false] at h
  rcases h with h | h <;> subst h
  · decide
  · simp [plainLine, ascii_package, isASCIILower]

theorem plainLine_flatMap (q : GoIdent → GoString) (mn un line : GoString) (names : List GoString)
    (h : line ∈ names.flatMap (methodPair q mn un)) : plainLine line = true := by
  obtain ⟨t, _, ht⟩ := List.mem_flatMap.1 h
  exact plainLine_methodPair q mn un t line ht

/-- A line that is not plain occurs in the output as often as in the var block. -/
theorem count_outputLines (q : GoIdent → GoString) (file : File) (line : GoString)
    (h : plainLine line = false) :
    (outputLines q file).count line = (varBlock q (camel (foldedName file))).count line := by
  unfold outputLines
  rw [List.count_append, List.count_append]
  have h1 : List.count line [ascii "// Code generated by protoc-gen-jsonshim. DO NOT EDIT.",
      ascii "package " ++ file.GoPackageName] = 0 := by
    rw [List.count_eq_zero]
    intro hm
    rw [plainLine_header _ _ hm] at h
    exact Bool.noConfusion h
  have h2 : List.count line ((preorder (prune file.Messages)).flatMap
      (methodPair q (camel (foldedName file) ++ ascii "Marshaler")
        (camel (foldedName file) ++ ascii "Unmarshaler"))) = 0 := by
    rw [List.count_eq_zero]
    intro hm
    rw [plainLine_flatMap _ _ _ _ _ hm] at h
    exact Bool.noConfusion h
  rw [h1, h2]
  simp

/-! ## Counting the nodes of a forest -/

mutual
theorem excludedMessage_true : ∀ m : Message, excludedMessage true m = sizeMessage m
  | Message.mk n me ms => by
    simp [excludedMessage, sizeMessage, excluded_true ms]
theorem excluded_true : ∀ ms : List Message, excluded true ms = size ms
  | [] => by simp [excluded, size]
  | m :: rest => by
    simp [excluded, size, excludedMessage_true m, excluded_true rest]
end

mutual
theorem length_preorder_pruneMessage : ∀ m : Message,
    (preorder (prune [m])).length + excludedMessage false m = sizeMessage m
  | Message.mk n me ms => by
    cases me with
    | true =>
      simp [prune, preorder, excludedMessage, sizeMessage, excluded_true ms]
    | false =>
      have := length_preorder_prune ms
      simp [prune, pruneMessage, preorder, preorderMessage, excludedMessage, sizeMessage]
      omega
theorem length_preorder_prune : ∀ ms : List Message,
    (preorder (prune ms)).length + excluded false ms = size ms
  | [] => by simp [prune, preorder, excluded, size]
  | m :: rest => by
    have h1 := length_preorder_pruneMessage m
    have h2 := length_preorder_prune rest
    rw [preorder_prune_cons]
    simp only [List.length_append, excluded, size]
    omega
end

theorem countMethod_pairs (m : Method) (names : List GoString) :
    ((names.flatMap (fun t => [(t, Method.MarshalJSON), (t, Method.UnmarshalJSON)])).filter
      (fun x => decide (x.2 = m))).length = names.length := by
  induction names with
  | nil => simp
  | cons t rest ih =>
    simp only [List.flatMap_cons, List.filter_append, List.length_append, ih, List.length_cons]
    cases m <;> simp <;> omega

/-! ## The claims about the emitter -/

/-- C1: the methods declared by the text `generateFile` produces are, in order, the
MarshalJSON/UnmarshalJSON pair of each type of the depth-first pre-order listing of the
message forest from which every map-entry node is removed with its whole subtree. The listing
puts a parent before its nested types, keeps siblings in declared order, and skips
everything under a map-entry node. -/
theorem C1_methods_follow_pruned_preorder (q : GoIdent → GoString) (file : File) :
    (∃ g, generateFile q file = some g ∧
      methodsOf g.lines =
        (preorder (prune file.Messages)).flatMap
          (fun t => [(t, Method.MarshalJSON), (t, Method.UnmarshalJSON)])) ∧
    preorder (prune []) = [] ∧
    (∀ n ms rest, preorder (prune (Message.mk n false ms :: rest)) =
      n :: (preorder (prune ms) ++ preorder (prune rest))) ∧
    (∀ n ms rest, preorder (prune (Message.mk n true ms :: rest)) = preorder (prune rest)) := by
  refine ⟨⟨_, generateFile_eq q file, methodsOf_outputLines q file⟩, ?_, ?_, ?_⟩
  · simp [prune, preorder]
  · intro n ms rest
    simp [prune, pruneMessage, preorder, preorderMessage]
  · intro n ms rest
    simp [prune]

/-- C2: the number of MarshalJSON methods in the generated text equals the number of
UnmarshalJSON methods, and both equal the number of message nodes of the forest minus the
number of nodes that are flagged map-entry or have a map-entry ancestor. -/
theorem C2_method_count (q : GoIdent → GoString) (file : File) :
    ∃ g, generateFile q file = some g ∧
      countMethod Method.MarshalJSON g.lines = countMethod Method.UnmarshalJSON g.lines ∧
      countMethod Method.MarshalJSON g.lines = size file.Messages - excluded false file.Messages ∧
      excluded false file.Messages ≤ size file.Messages := by
  refine ⟨_, generateFile_eq q file, ?_, ?_, ?_⟩
  · simp only [countMethod, methodsOf_outputLines, countMethod_pairs]
  · have := length_preorder_prune file.Messages
    simp only [countMethod, methodsOf_outputLines, countMethod_pairs]
    omega
  · have := length_preorder_prune file.Messages
    omega

theorem declMarshaler_shape (p x : GoString) :
    p ++ ascii "Marshaler" ++ ascii " = &" ++ x ++ ascii "\x7b\x7d" =
      p ++ 77 :: 97 :: (ascii "rshaler" ++ ascii " = &" ++ x ++ ascii "\x7b\x7d") := by
  have : ascii "Marshaler" = 77 :: 97 :: ascii "rshaler" := by decide
  rw [this]
  simp

theorem declUnmarshaler_shape (p x : GoString) :
    p ++ ascii "Unmarshaler" ++ ascii " = &" ++ x ++ ascii "\x7bAllowUnknownFields: true\x7d" =
      p ++ 85 :: 110 :: (ascii "marshaler" ++ ascii " = &" ++ x ++
        ascii "\x7bAllowUnknownFields: true\x7d") := by
  have : ascii "Unmarshaler" = 85 :: 110 :: ascii "marshaler" := by decide
  rw [this]
  simp

/-- Each of the two declaration lines occurs exactly once in the output. -/
theorem count_decl_outputLines (q : GoIdent → GoString) (file : File) :
    (outputLines q file).count (camel (foldedName file) ++ ascii "Marshaler" ++ ascii " = &" ++
      q ⟨ascii "Marshaler", ascii "github.com/golang/protobuf/jsonpb"⟩ ++ ascii "\x7b\x7d") = 1 ∧
    (outputLines q file).count (camel (foldedName file) ++ ascii "Unmarshaler" ++ ascii " = &" ++
      q ⟨ascii "Unmarshaler", ascii "github.com/golang/protobuf/jsonpb"⟩ ++
      ascii "\x7bAllowUnknownFields: true\x7d") = 1 := by
  have hpM := plainLine_decl file 77 97 (ascii "rshaler" ++ ascii " = &" ++
    q ⟨ascii "Marshaler", ascii "github.com/golang/protobuf/jsonpb"⟩ ++ ascii "\x7b\x7d")
    (by decide) (by decide)
  have hpU := plainLine_decl file 85 110 (ascii "marshaler" ++ ascii " = &" ++
    q ⟨ascii "Unmarshaler", ascii "github.com/golang/protobuf/jsonpb"⟩ ++
    ascii "\x7bAllowUnknownFields: true\x7d") (by decide) (by decide)
  rw [← declMarshaler_shape] at hpM
  rw [← declUnmarshaler_shape] at hpU
  have hvar : plainLine (ascii "var (") = true := by decide
  have hclose : plainLine (ascii ")") = true := by decide
  have hne : camel (foldedName file) ++ ascii "Marshaler" ++ ascii " = &" ++
      q ⟨ascii "Marshaler", ascii "github.com/golang/protobuf/jsonpb"⟩ ++ ascii "\x7b\x7d" ≠
      camel (foldedName file) ++ ascii "Unmarshaler" ++ ascii " = &" ++
      q ⟨ascii "Unmarshaler", ascii "github.com/golang/protobuf/jsonpb"⟩ ++
      ascii "\x7bAllowUnknownFields: true\x7d" := by
    rw [declMarshaler_shape, declUnmarshaler_shape]
    intro h
    have := List.append_cancel_left h
    simp at this
  have n1 : ascii "var (" ≠ camel (foldedName file) ++ ascii "Marshaler" ++ ascii " = &" ++
      q ⟨ascii "Marshaler", ascii "github.com/golang/protobuf/jsonpb"⟩ ++ ascii "\x7b\x7d" := by
    intro h; rw [← h, hvar] at hpM; exact Bool.noConfusion hpM
  have n2 : ascii ")" ≠ camel (foldedName file) ++ ascii "Marshaler" ++ ascii " = &" ++
      q ⟨ascii "Marshaler", ascii "github.com/golang/protobuf/jsonpb"⟩ ++ ascii "\x7b\x7d" := by
    intro h; rw [← h, hclose] at hpM; exact Bool.noConfusion hpM
  have n3 : ascii "var (" ≠ camel (foldedName file) ++ ascii "Unmarshaler" ++ ascii " = &" ++
      q ⟨ascii "Unmarshaler", ascii "github.com/golang/protobuf/jsonpb"⟩ ++
      ascii "\x7bAllowUnknownFields: true\x7d" := by
    intro h; rw [← h, hvar] at hpU; exact Bool.noConfusion hpU
  have n4 : ascii ")" ≠ camel (foldedName file) ++ ascii "Unmarshaler" ++ ascii " = &" ++
      q ⟨ascii "Unmarshaler", ascii "github.com/golang/protobuf/jsonpb"⟩ ++
      ascii "\x7bAllowUnknownFields: true\x7d" := by
    intro h; rw [← h, hclose] at hpU; exact Bool.noConfusion hpU
  constructor
  · rw [count_outputLines q file _ hpM]
    simp only [varBlock]
    rw [List.count_cons_of_ne n1.symm, List.count_cons_self, List.count_cons_of_ne hne,
      List.count_cons_of_ne n2.symm, List.count_nil]
  · rw [count_outputLines q file _ hpU]
    simp only [varBlock]
    rw [List.count_cons_of_ne n3.symm, List.count_cons_of_ne hne.symm, List.count_cons_self,
      List.count_cons_of_ne n4.symm, List.count_nil]

/-- No line of a method pair is a line of the var block. -/
theorem methodPair_not_in_varBlock (q : GoIdent → GoString) (file : File) (t line : GoString)
    (h : line ∈ methodPair q (camel (foldedName file) ++ ascii "Marshaler")
      (camel (foldedName file) ++ ascii "Unmarshaler") t) :
    line ∉ varBlock q (camel (foldedName file)) := by
  have hp := plainLine_methodPair q _ _ t line h
  have hpM := plainLine_decl file 77 97 (ascii "rshaler" ++ ascii " = &" ++
    q ⟨ascii "Marshaler", ascii "github.com/golang/protobuf/jsonpb"⟩ ++ ascii "\x7b\x7d")
    (by decide) (by decide)
  have hpU := plainLine_decl file 85 110 (ascii "marshaler" ++ ascii " = &" ++
    q ⟨ascii "Unmarshaler", ascii "github.com/golang/protobuf/jsonpb"⟩ ++
    ascii "\x7bAllowUnknownFields: true\x7d") (by decide) (by decide)
  rw [← declMarshaler_shape] at hpM
  rw [← declUnmarshaler_shape] at hpU
  intro hm
  simp only [varBlock, List.mem_cons, List.mem_singleton, List.not_mem_nil, or_false] at hm
  simp only [methodPair, List.mem_cons, List.mem_singleton, List.not_mem_nil, or_false] at h
  rcases hm with hm | hm | hm | hm
  · subst hm
    rcases h with h | h | h | h | h | h | h | h | h <;>
      simp [ascii_var, ascii_marshalDoc, ascii_unmarshalDoc, ascii_func, ascii_strErr,
        ascii_returnBytes, ascii_return, ascii_closeBrace] at h
  · rw [hm, hpM] at hp
    exact Bool.noConfusion hp
  · rw [hm, hpU] at hp
    exact Bool.noConfusion hp
  · subst hm
    rcases h with h | h | h | h | h | h | h | h | h <;>
      simp [ascii_closeParen, ascii_marshalDoc, ascii_unmarshalDoc, ascii_func, ascii_strErr,
        ascii_returnBytes, ascii_return, ascii_closeBrace] at h

/-- The shape of the generated text, for a rendering `q` that prints the two jsonpb
identifiers as `m` and `u`: the text ends with the var block, each declaration line occurs
once, the method pairs come before the block and share no line with it. -/
theorem varBlock_once_at_end (q : GoIdent → GoString) (file : File) (m u : GoString)
    (hM : q ⟨ascii "Marshaler", ascii "github.com/golang/protobuf/jsonpb"⟩ = m)
    (hU : q ⟨ascii "Unmarshaler", ascii "github.com/golang/protobuf/jsonpb"⟩ = u) :
    ∃ namePrefix g pre, FileName file = some namePrefix ∧ generateFile q file = some g ∧
      g.lines = pre ++
        [ascii "var (",
         namePrefix ++ ascii "Marshaler = &" ++ m ++ ascii "\x7b\x7d",
         namePrefix ++ ascii "Unmarshaler = &" ++ u ++ ascii "\x7bAllowUnknownFields: true\x7d",
         ascii ")"] ∧
      g.lines.count (namePrefix ++ ascii "Marshaler = &" ++ m ++ ascii "\x7b\x7d") = 1 ∧
      g.lines.count
        (namePrefix ++ ascii "Unmarshaler = &" ++ u ++
          ascii "\x7bAllowUnknownFields: true\x7d") = 1 ∧
      pre = [ascii "// Code generated by protoc-gen-jsonshim. DO NOT EDIT.",
          ascii "package " ++ file.GoPackageName] ++
        (preorder (prune file.Messages)).flatMap
          (methodPair q (namePrefix ++ ascii "Marshaler") (namePrefix ++ ascii "Unmarshaler")) ∧
      ∀ t, ∀ line ∈ methodPair q (namePrefix ++ ascii "Marshaler")
          (namePrefix ++ ascii "Unmarshaler") t,
        line ∉ [ascii "var (",
          namePrefix ++ ascii "Marshaler = &" ++ m ++ ascii "\x7b\x7d",
          namePrefix ++ ascii "Unmarshaler = &" ++ u ++ ascii "\x7bAllowUnknownFields: true\x7d",
          ascii ")"] := by
  have eM : camel (foldedName file) ++ ascii "Marshaler = &" ++ m ++ ascii "\x7b\x7d" =
      camel (foldedName file) ++ ascii "Marshaler" ++ ascii " = &" ++
        q ⟨ascii "Marshaler", ascii "github.com/golang/protobuf/jsonpb"⟩ ++ ascii "\x7b\x7d" := by
    rw [hM]
    have : ascii "Marshaler = &" = ascii "Marshaler" ++ ascii " = &" := by decide
    rw [this]
    simp only [List.append_assoc]
  have eU : camel (foldedName file) ++ ascii "Unmarshaler = &" ++ u ++
        ascii "\x7bAllowUnknownFields: true\x7d" =
      camel (foldedName file) ++ ascii "Unmarshaler" ++ ascii " = &" ++
        q ⟨ascii "Unmarshaler", ascii "github.com/golang/protobuf/jsonpb"⟩ ++
        ascii "\x7bAllowUnknownFields: true\x7d" := by
    rw [hU]
    have : ascii "Unmarshaler = &" = ascii "Unmarshaler" ++ ascii " = &" := by decide
    rw [this]
    simp only [List.append_assoc]
  have hblock : [ascii "var (",
      camel (foldedName file) ++ ascii "Marshaler = &" ++ m ++ ascii "\x7b\x7d",
      camel (foldedName file) ++ ascii "Unmarshaler = &" ++ u ++
        ascii "\x7bAllowUnknownFields: true\x7d",
      ascii ")"] = varBlock q (camel (foldedName file)) := by
    rw [eM, eU]
    rfl
  refine ⟨camel (foldedName file), _, _, CamelCase_eq _, generateFile_eq q file, ?_, ?_, ?_, rfl, ?_⟩
  · rw [hblock]
    rfl
  · rw [eM]
    exact (count_decl_outputLines q file).1
  · rw [eU]
    exact (count_decl_outputLines q file).2
  · intro t line hl
    rw [hblock]
    exact methodPair_not_in_varBlock q file t line hl

theorem qualifiedGoIdent_jsonpb (goImportPath name : GoString) :
    qualifiedGoIdent goImportPath ⟨name, ascii "github.com/golang/protobuf/jsonpb"⟩ =
      if goImportPath = ascii "github.com/golang/protobuf/jsonpb" then name
      else ascii "jsonpb." ++ name := by
  unfold qualifiedGoIdent
  by_cases h : goImportPath = ascii "github.com/golang/protobuf/jsonpb"
  · rw [if_pos h, if_pos h.symm]
  · rw [if_neg h, if_neg (fun e => h e.symm)]
    have : pathBase (ascii "github.com/golang/protobuf/jsonpb") ++ ascii "." = ascii "jsonpb." := by
      decide
    rw [this]

/-- C3 fails as stated: a file generated into the package `github.com/golang/protobuf/jsonpb`
has an eligible message, yet protogen prints the identifiers of the file's own package
bare, so the text ends with `JMarshaler = &Marshaler{}` and `JUnmarshaler =
&Unmarshaler{AllowUnknownFields: true}`, and the lines the claim names occur nowhere. -/
theorem C3_counterexample :
    preorder (prune jsonpbFile.Messages) ≠ [] ∧
    FileName jsonpbFile = some (ascii "J") ∧
    (generateFile (qualifiedGoIdent jsonpbFile.GoImportPath) jsonpbFile).map
        (fun g => g.lines.drop (g.lines.length - 4)) =
      some [ascii "var (",
        ascii "JMarshaler = &Marshaler\x7b\x7d",
        ascii "JUnmarshaler = &Unmarshaler\x7bAllowUnknownFields: true\x7d",
        ascii ")"] ∧
    (generateFile (qualifiedGoIdent jsonpbFile.GoImportPath) jsonpbFile).map
        (fun g => g.lines.count (ascii "JMarshaler = &jsonpb.Marshaler\x7b\x7d")) = some 0 ∧
    (generateFile (qualifiedGoIdent jsonpbFile.GoImportPath) jsonpbFile).map
        (fun g => g.lines.count
          (ascii "JUnmarshaler = &jsonpb.Unmarshaler\x7bAllowUnknownFields: true\x7d")) =
      some 0 := by
  decide

/-- C3, amended: for a file with at least one eligible message, with protogen's rendering
of identifiers, the generated text ends with the four-line var block whose two declarations
are named after `FileName(file)` and initialised with `jsonpb.Marshaler` and
`jsonpb.Unmarshaler`, printed bare as `Marshaler` and `Unmarshaler` when the file's own
Go import path is `github.com/golang/protobuf/jsonpb`; each of the two declaration lines
occurs exactly once in the text; all method pairs are printed before the block and no line of a
method pair is a line of the block. -/
theorem C3_var_block_once_at_end (file : File)
    (_hEligible : preorder (prune file.Messages) ≠ []) :
    ∃ namePrefix g pre marshaler unmarshaler,
      FileName file = some namePrefix ∧
      generateFile (qualifiedGoIdent file.GoImportPath) file = some g ∧
      marshaler = (if file.GoImportPath = ascii "github.com/golang/protobuf/jsonpb"
        then ascii "Marshaler" else ascii "jsonpb.Marshaler") ∧
      unmarshaler = (if file.GoImportPath = ascii "github.com/golang/protobuf/jsonpb"
        then ascii "Unmarshaler" else ascii "jsonpb.Unmarshaler") ∧
      g.lines = pre ++
        [ascii "var (",
         namePrefix ++ ascii "Marshaler = &" ++ marshaler ++ ascii "\x7b\x7d",
         namePrefix ++ ascii "Unmarshaler = &" ++ unmarshaler ++
           ascii "\x7bAllowUnknownFields: true\x7d",
         ascii ")"] ∧
      g.lines.count (namePrefix ++ ascii "Marshaler = &" ++ marshaler ++ ascii "\x7b\x7d") = 1 ∧
      g.lines.count
        (namePrefix ++ ascii "Unmarshaler = &" ++ unmarshaler ++
          ascii "\x7bAllowUnknownFields: true\x7d") = 1 ∧
      pre = [ascii "// Code generated by protoc-gen-jsonshim. DO NOT EDIT.",
          ascii "package " ++ file.GoPackageName] ++
        (preorder (prune file.Messages)).flatMap
          (methodPair (qualifiedGoIdent file.GoImportPath) (namePrefix ++ ascii "Marshaler")
            (namePrefix ++ ascii "Unmarshaler")) ∧
      ∀ t, ∀ line ∈ methodPair (qualifiedGoIdent file.GoImportPath)
          (namePrefix ++ ascii "Marshaler") (namePrefix ++ ascii "Unmarshaler") t,
        line ∉ [ascii "var (",
          namePrefix ++ ascii "Marshaler = &" ++ marshaler ++ ascii "\x7b\x7d",
          namePrefix ++ ascii "Unmarshaler = &" ++ unmarshaler ++
            ascii "\x7bAllowUnknownFields: true\x7d",
          ascii ")"] := by
  have hM : qualifiedGoIdent file.GoImportPath
      ⟨ascii "Marshaler", ascii "github.com/golang/protobuf/jsonpb"⟩ =
      (if file.GoImportPath = ascii "github.com/golang/protobuf/jsonpb"
        then ascii "Marshaler" else ascii "jsonpb.Marshaler") := by
    rw [qualifiedGoIdent_jsonpb]
    split_ifs
    · rfl
    · decide
  have hU : qualifiedGoIdent file.GoImportPath
      ⟨ascii "Unmarshaler", ascii "github.com/golang/protobuf/jsonpb"⟩ =
      (if file.GoImportPath = ascii "github.com/golang/protobuf/jsonpb"
        then ascii "Unmarshaler" else ascii "jsonpb.Unmarshaler") := by
    rw [qualifiedGoIdent_jsonpb]
    split_ifs
    · rfl
    · decide
  obtain ⟨p, g, pre, h1, h2, h3, h4, h5, h6, h7⟩ :=
    varBlock_once_at_end (qualifiedGoIdent file.GoImportPath) file _ _ hM hU
  exact ⟨p, g, pre, _, _, h1, h2, rfl, rfl, h3, h4, h5, h6, h7⟩

/-- C3, amended, at the file `widgets.proto` of the end-to-end scenario, generated into the
package `example.com/widgets`. -/
theorem C3_var_block_once_at_end_witness :
    preorder (prune (widgetsFile (ascii "widgets") (ascii "example.com/widgets")
      (ascii "widgets")).Messages) ≠ [] ∧
    ∃ g, generateFile (qualifiedGoIdent (ascii "example.com/widgets"))
        (widgetsFile (ascii "widgets") (ascii "example.com/widgets") (ascii "widgets")) = some g ∧
      g.lines.count (ascii "WidgetsMarshaler = &jsonpb.Marshaler\x7b\x7d") = 1 := by
  refine ⟨by decide, ?_⟩
  obtain ⟨p, g, pre, m, u, hp, hg, hm, _, _, hc, _⟩ :=
    C3_var_block_once_at_end
      (widgetsFile (ascii "widgets") (ascii "example.com/widgets") (ascii "widgets")) (by decide)
  have hp2 : FileName (widgetsFile (ascii "widgets") (ascii "example.com/widgets")
      (ascii "widgets")) = some (ascii "Widgets") := by decide
  rw [hp2] at hp
  cases hp
  have hm2 : m = ascii "jsonpb.Marshaler" := by
    rw [hm]
    decide
  subst hm2
  exact ⟨g, hg, hc⟩

/-! ## Method bodies -/

theorem methodBodies_of_none (line : GoString) (rest : List GoString)
    (h : methodOfLine line = none) : methodBodies (line :: rest) = methodBodies rest := by
  rw [methodBodies, h]

theorem methodBodies_of_some (line : GoString) (rest : List GoString) (m : GoString × Method)
    (h : methodOfLine line = some m) :
    methodBodies (line :: rest) =
      (m, rest.takeWhile (fun l => l != ascii "\x7d")) :: methodBodies rest := by
  rw [methodBodies, h]

theorem methodBodies_methodPair (q : GoIdent → GoString) (mn un t : GoString)
    (tail : List GoString) :
    methodBodies (methodPair q mn un t ++ tail) = expectedBodies q mn un t ++ methodBodies tail := by
  have h1 : methodOfLine (ascii "// MarshalJSON is a custom marshaler for " ++ t) = none :=
    methodOfLine_of_not_func _ (not_func_of_head _ 47 (by simp [ascii_marshalDoc]) (by decide))
  have h2 : methodOfLine (ascii "str, err := " ++ mn ++ ascii ".MarshalToString(this)") = none :=
    methodOfLine_of_not_func _ (not_func_of_head _ 115 (by simp [ascii_strErr]) (by decide))
  have h3 : methodOfLine (ascii "return []byte(str), err") = none := by decide
  have h4 : methodOfLine (ascii "\x7d") = none := by decide
  have h5 : methodOfLine (ascii "// UnmarshalJSON is a custom unmarshaler for " ++ t) = none :=
    methodOfLine_of_not_func _ (not_func_of_head _ 47 (by simp [ascii_unmarshalDoc]) (by decide))
  have h6 : methodOfLine (ascii "return " ++ un ++ ascii ".Unmarshal(" ++
      q ⟨ascii "NewReader", ascii "bytes"⟩ ++ ascii "(b), this)") = none :=
    methodOfLine_of_not_func _ (not_func_of_head _ 114 (by simp [ascii_return]) (by decide))
  have b1 : (ascii "str, err := " ++ mn ++ ascii ".MarshalToString(this)" != ascii "\x7d") = true := by
    simp [ascii_strErr, ascii_closeBrace]
  have b2 : (ascii "return []byte(str), err" != ascii "\x7d") = true := by decide
  have b3 : (ascii "\x7d" != ascii "\x7d") = false := by decide
  have b4 : (ascii "return " ++ un ++ ascii ".Unmarshal(" ++
      q ⟨ascii "NewReader", ascii "bytes"⟩ ++ ascii "(b), this)" != ascii "\x7d") = true := by
    simp [ascii_return, ascii_closeBrace]
  simp only [methodPair, List.cons_append, List.nil_append]
  rw [methodBodies_of_none _ _ h1, methodBodies_of_some _ _ _ (methodOfLine_marshal t),
    methodBodies_of_none _ _ h2, methodBodies_of_none _ _ h3, methodBodies_of_none _ _ h4,
    methodBodies_of_none _ _ h5, methodBodies_of_some _ _ _ (methodOfLine_unmarshal t),
    methodBodies_of_none _ _ h6, methodBodies_of_none _ _ h4]
  simp only [expectedBodies, List.cons_append, List.nil_append]
  simp only [List.takeWhile_cons, b1, b2, b3, b4, if_true, Bool.false_eq_true, if_false]

theorem methodBodies_flatMap (q : GoIdent → GoString) (mn un : GoString) (names : List GoString)
    (tail : List GoString) :
    methodBodies (names.flatMap (methodPair q mn un) ++ tail) =
      names.flatMap (expectedBodies q mn un) ++ methodBodies tail := by
  induction names with
  | nil => simp
  | cons t rest ih =>
    simp only [List.flatMap_cons, List.append_assoc]
    rw [methodBodies_methodPair, ih]

theorem methodBodies_of_methodsOf_nil : ∀ lines : List GoString, methodsOf lines = [] →
    methodBodies lines = [] := by
  intro lines
  induction lines with
  | nil => intro _; rfl
  | cons line rest ih =>
    intro h
    cases hm : methodOfLine line with
    | none =>
      rw [methodBodies_of_none _ _ hm]
      apply ih
      simpa [methodsOf, hm] using h
    | some m => simp [methodsOf, hm] at h

theorem methodBodies_outputLines (q : GoIdent → GoString) (file : File) :
    methodBodies (outputLines q file) =
      (preorder (prune file.Messages)).flatMap
        (expectedBodies q (camel (foldedName file) ++ ascii "Marshaler")
          (camel (foldedName file) ++ ascii "Unmarshaler")) := by
  have h1 : methodOfLine (ascii "// Code generated by protoc-gen-jsonshim. DO NOT EDIT.") = none := by
    decide
  have h2 : methodOfLine (ascii "package " ++ file.GoPackageName) = none :=
    methodOfLine_of_not_func _ (not_func_of_head _ 112 (by simp [ascii_package]) (by decide))
  unfold outputLines
  simp only [List.cons_append, List.nil_append]
  rw [methodBodies_of_none _ _ h1, methodBodies_of_none _ _ h2, methodBodies_flatMap,
    methodBodies_of_methodsOf_nil _ (methodsOf_varBlock q _)]
  simp

/-- C4: in the generated text the body of every MarshalJSON method is the call of
`MarshalToString` on `FileName(file) ++ "Marshaler"` and the body of every UnmarshalJSON
method is the call of `Unmarshal` on `FileName(file) ++ "Unmarshaler"`, the same two names
for every message of the file, and the var block that ends the text declares exactly these
two names. -/
theorem C4_methods_use_declared_codecs (q : GoIdent → GoString) (file : File) :
    ∃ namePrefix g pre, FileName file = some namePrefix ∧ generateFile q file = some g ∧
      methodBodies g.lines =
        (preorder (prune file.Messages)).flatMap (fun t =>
          [ ((t, Method.MarshalJSON),
              [ascii "str, err := " ++ (namePrefix ++ ascii "Marshaler") ++
                ascii ".MarshalToString(this)",
               ascii "return []byte(str), err"]),
            ((t, Method.UnmarshalJSON),
              [ascii "return " ++ (namePrefix ++ ascii "Unmarshaler") ++ ascii ".Unmarshal(" ++
                q ⟨ascii "NewReader", ascii "bytes"⟩ ++ ascii "(b), this)"]) ]) ∧
      g.lines = pre ++
        [ascii "var (",
         (namePrefix ++ ascii "Marshaler") ++ ascii " = &" ++
           q ⟨ascii "Marshaler", ascii "github.com/golang/protobuf/jsonpb"⟩ ++ ascii "\x7b\x7d",
         (namePrefix ++ ascii "Unmarshaler") ++ ascii " = &" ++
           q ⟨ascii "Unmarshaler", ascii "github.com/golang/protobuf/jsonpb"⟩ ++
           ascii "\x7bAllowUnknownFields: true\x7d",
         ascii ")"] := by
  refine ⟨camel (foldedName file), _,
    [ascii "// Code generated by protoc-gen-jsonshim. DO NOT EDIT.",
      ascii "package " ++ file.GoPackageName] ++
    (preorder (prune file.Messages)).flatMap
      (methodPair q (camel (foldedName file) ++ ascii "Marshaler")
        (camel (foldedName file) ++ ascii "Unmarshaler")),
    CamelCase_eq _, generateFile_eq q file, ?_, ?_⟩
  · exact methodBodies_outputLines q file
  · rfl

/-! ## The worked examples -/

/-- C5: for `widgets.proto` with the message `Widget`, its nested message `WidgetMeta` and
the map-entry type `Widget_LabelsEntry`, the generated text declares exactly four methods, in
the order Widget.MarshalJSON, Widget.UnmarshalJSON, WidgetMeta.MarshalJSON,
WidgetMeta.UnmarshalJSON, none with the receiver `Widget_LabelsEntry`, and its last four
lines declare the globals `WidgetsMarshaler` and `WidgetsUnmarshaler`. -/
theorem C5_widgets_scenario (q : GoIdent → GoString) (pfx imp pkg : GoString) :
    ∃ g pre, generateFile q (widgetsFile pfx imp pkg) = some g ∧
      FileName (widgetsFile pfx imp pkg) = some (ascii "Widgets") ∧
      methodsOf g.lines =
        [ (ascii "Widget", Method.MarshalJSON), (ascii "Widget", Method.UnmarshalJSON),
          (ascii "WidgetMeta", Method.MarshalJSON), (ascii "WidgetMeta", Method.UnmarshalJSON) ] ∧
      (∀ m, (ascii "Widget_LabelsEntry", m) ∉ methodsOf g.lines) ∧
      g.lines = pre ++
        [ ascii "var (",
          ascii "WidgetsMarshaler = &" ++
            q ⟨ascii "Marshaler", ascii "github.com/golang/protobuf/jsonpb"⟩ ++ ascii "\x7b\x7d",
          ascii "WidgetsUnmarshaler = &" ++
            q ⟨ascii "Unmarshaler", ascii "github.com/golang/protobuf/jsonpb"⟩ ++
            ascii "\x7bAllowUnknownFields: true\x7d",
          ascii ")" ] ∧
      pre =
        [ ascii "// Code generated by protoc-gen-jsonshim. DO NOT EDIT.",
          ascii "package " ++ pkg,
          ascii "// MarshalJSON is a custom marshaler for Widget",
          ascii "func (this *Widget) MarshalJSON() ([]byte, error) \x7b",
          ascii "str, err := WidgetsMarshaler.MarshalToString(this)",
          ascii "return []byte(str), err",
          ascii "\x7d",
          ascii "// UnmarshalJSON is a custom unmarshaler for Widget",
          ascii "func (this *Widget) UnmarshalJSON(b []byte) error \x7b",
          ascii "return WidgetsUnmarshaler.Unmarshal(" ++ q ⟨ascii "NewReader", ascii "bytes"⟩ ++
            ascii "(b), this)",
          ascii "\x7d",
          ascii "// MarshalJSON is a custom marshaler for WidgetMeta",
          ascii "func (this *WidgetMeta) MarshalJSON() ([]byte, error) \x7b",
          ascii "str, err := WidgetsMarshaler.MarshalToString(this)",
          ascii "return []byte(str), err",
          ascii "\x7d",
          ascii "// UnmarshalJSON is a custom unmarshaler for WidgetMeta",
          ascii "func (this *WidgetMeta) UnmarshalJSON(b []byte) error \x7b",
          ascii "return WidgetsUnmarshaler.Unmarshal(" ++ q ⟨ascii "NewReader", ascii "bytes"⟩ ++
            ascii "(b), this)",
          ascii "\x7d" ] := by
  have hnames : preorder (prune (widgetsFile pfx imp pkg).Messages) =
      [ascii "Widget", ascii "WidgetMeta"] := by
    simp only [widgetsFile]
    decide
  have hm : methodsOf (outputLines q (widgetsFile pfx imp pkg)) =
      [ (ascii "Widget", Method.MarshalJSON), (ascii "Widget", Method.UnmarshalJSON),
        (ascii "WidgetMeta", Method.MarshalJSON), (ascii "WidgetMeta", Method.UnmarshalJSON) ] := by
    rw [methodsOf_outputLines, hnames]
    rfl
  refine ⟨_, _, generateFile_eq q _, ?_, hm, ?_, ?_, rfl⟩
  · simp only [FileName, foldedName, widgetsFile]
    decide
  · intro m
    show (ascii "Widget_LabelsEntry", m) ∉ methodsOf (outputLines q (widgetsFile pfx imp pkg))
    rw [hm]
    cases m <;> decide
  · rfl

/-- C6: `CamelCase("_my_field_name_2") = "XMyFieldName_2"`. -/
theorem C6_camelCase_worked_example :
    CamelCase (ascii "_my_field_name_2") = some (ascii "XMyFieldName_2") := by
  decide

/-- C7: for the file name `my-file.proto`, `FileName` folds the name to `my_file` and
then returns `MyFile`. -/
theorem C7_fileName_my_file :
    foldedName myFile = ascii "my_file" ∧ CamelCase (ascii "my_file") = some (ascii "MyFile") ∧
      FileName myFile = some (ascii "MyFile") := by
  decide

/-! ## The base name of a path -/

theorem rtakeWhile_after_slash (pre b : GoString) (h : 47 ∉ b) :
    (pre ++ 47 :: b).rtakeWhile (fun c => c != 47) = b := by
  unfold List.rtakeWhile
  have hr : (pre ++ 47 :: b).reverse = b.reverse ++ 47 :: pre.reverse := by simp
  rw [hr, List.takeWhile_append_of_pos, List.takeWhile_cons_of_neg (by simp)]
  · simp
  · intro a ha
    have : a ∈ b := List.mem_reverse.1 ha
    simp only [bne_iff_ne, ne_eq]
    intro h47
    exact h (h47 ▸ this)

theorem rtakeWhile_no_slash (b : GoString) (h : 47 ∉ b) :
    b.rtakeWhile (fun c => c != 47) = b := by
  rw [List.rtakeWhile_eq_self_iff]
  intro x hx
  simp only [bne_iff_ne, ne_eq]
  intro h47
  exact h (h47 ▸ hx)

theorem rdropWhile_of_getLast (l : GoString) (hl : l ≠ []) (h : l.getLast hl ≠ 47) :
    l.rdropWhile (fun c => c == 47) = l := by
  rw [List.rdropWhile_eq_self_iff]
  intro _
  simpa using h

/-- The base name of a path that ends with the slash-free, non-empty element `b`. -/
theorem pathBase_dir (d b : GoString) (hb : b ≠ []) (h : 47 ∉ b) :
    pathBase (d ++ ascii "/" ++ b) = b := by
  have e : d ++ ascii "/" ++ b = d ++ 47 :: b := by
    have : ascii "/" = [47] := by decide
    rw [this]; simp
  rw [e]
  unfold pathBase
  have hne : d ++ 47 :: b ≠ [] := by simp
  rw [if_neg hne]
  have hlast : (d ++ 47 :: b).getLast hne ≠ 47 := by
    rw [List.getLast_append_of_ne_nil (List.cons_ne_nil 47 b), List.getLast_cons hb]
    intro h47
    exact h (h47 ▸ List.getLast_mem hb)
  simp only []
  rw [rdropWhile_of_getLast _ hne hlast, rtakeWhile_after_slash d b h, if_neg hb]

/-- The base name of a slash-free, non-empty path is the path. -/
theorem pathBase_plain (b : GoString) (hb : b ≠ []) (h : 47 ∉ b) : pathBase b = b := by
  unfold pathBase
  rw [if_neg hb]
  have hlast : b.getLast hb ≠ 47 := by
    intro h47
    exact h (h47 ▸ List.getLast_mem hb)
  simp only []
  rw [rdropWhile_of_getLast _ hb hlast, rtakeWhile_no_slash b h, if_neg hb]

theorem ne_nil_of_occurrences (b : GoString) (h : occurrences (ascii ".proto") b = 1) : b ≠ [] := by
  intro hb
  subst hb
  revert h
  decide

/-- C8: for a base name `b` without a slash that contains `.proto` exactly once, and any
directory prefix `d`, `FileName` returns for the name `d/b` what it returns for `b`. -/
theorem C8_fileName_ignores_directory (file : File) (d b : GoString)
    (hSlash : 47 ∉ b) (hOnce : occurrences (ascii ".proto") b = 1) :
    FileName { file with ProtoName := d ++ ascii "/" ++ b } =
      FileName { file with ProtoName := b } := by
  have hb := ne_nil_of_occurrences b hOnce
  simp only [FileName, foldedName]
  rw [pathBase_dir d b hb hSlash, pathBase_plain b hb hSlash]

/-- C8 at the base name `my-file.proto` under the directory `api/v1`. -/
theorem C8_fileName_ignores_directory_witness :
    47 ∉ ascii "my-file.proto" ∧ occurrences (ascii ".proto") (ascii "my-file.proto") = 1 ∧
    FileName { myFile with ProtoName := ascii "api/v1" ++ ascii "/" ++ ascii "my-file.proto" } =
      FileName { myFile with ProtoName := ascii "my-file.proto" } :=
  ⟨by decide, by decide,
    C8_fileName_ignores_directory myFile (ascii "api/v1") (ascii "my-file.proto")
      (by decide) (by decide)⟩

/-- C9 fails as stated: for the file with the empty name `FileName` returns `X`, not the
empty string. -/
theorem C9_counterexample :
    emptyNameFile.ProtoName = [] ∧ FileName emptyNameFile = some (ascii "X") ∧
      FileName emptyNameFile ≠ some [] := by
  decide

/-- C9, amended: for every file whose name is the empty string, the base name is `.`
(the result of `path.Base` on the empty path), the folded name is `_`, and `FileName`
returns `X`. -/
theorem C9_fileName_empty_name (file : File) (h : file.ProtoName = []) :
    pathBase file.ProtoName = ascii "." ∧ foldedName file = ascii "_" ∧
      FileName file = some (ascii "X") := by
  simp only [FileName, foldedName, h]
  decide

/-- C9, amended, at the file with the empty name. -/
theorem C9_fileName_empty_name_witness :
    emptyNameFile.ProtoName = [] ∧ FileName emptyNameFile = some (ascii "X") :=
  ⟨by decide, (C9_fileName_empty_name emptyNameFile (by decide)).2.2⟩

/-- C10 fails as stated: `1.proto` and `.proto` are made of letters, digits and dots only,
yet `FileName` returns `1`, which does not begin with an upper-case letter, and the empty
string. -/
theorem C10_counterexample :
    (digitNameFile.ProtoName.all isNameByte = true ∧
      FileName digitNameFile = some (ascii "1") ∧ isCapitalizedIdent (ascii "1") = false) ∧
    (extensionOnlyFile.ProtoName.all isNameByte = true ∧
      FileName extensionOnlyFile = some [] ∧ isCapitalizedIdent [] = false) := by
  decide

/-! ## The bytes of a derived name -/

theorem replaceFrom_single (a b : Nat) (s : GoString) :
    replaceFrom [a] [b] 0 s = s.map (fun c => if c = a then b else c) := by
  induction s with
  | nil => rfl
  | cons c rest ih =>
    rw [replaceFrom]
    by_cases h : c = a
    · subst h
      simp [List.isPrefixOf, ih]
    · have h2 : ¬ a = c := fun e => h e.symm
      simp [List.isPrefixOf, ih, h, h2]

/-- Lines 80-81 of `FileName` replace bytes one by one. -/
theorem foldedName_eq_map (file : File) :
    foldedName file =
      (stringsReplaceAll (pathBase file.ProtoName) (ascii ".proto") (ascii "")).map
        (fun c => if c = 45 ∨ c = 46 then 95 else c) := by
  have e1 : ascii "-" = [45] := by decide
  have e2 : ascii "_" = [95] := by decide
  have e3 : ascii "." = [46] := by decide
  simp only [foldedName, e1, e2, e3]
  rw [stringsReplaceAll, replaceFrom_single, stringsReplaceAll, replaceFrom_single, List.map_map]
  apply List.map_congr_left
  intro c _
  simp only [Function.comp]
  by_cases h1 : c = 45
  · simp [h1]
  · by_cases h2 : c = 46
    · simp [h2]
    · simp [h1, h2]

theorem isIdentByte_toUpperByte {c : Nat} (h : isIdentByte c = true) :
    isIdentByte (toUpperByte c) = true := by
  unfold toUpperByte
  by_cases hl : isASCIILower c = true
  · rw [if_pos hl, xor_32_of_lower hl]
    simp only [isASCIILower, Bool.and_eq_true, decide_eq_true_eq] at hl
    simp only [isIdentByte, isASCIILetter, isASCIIUpper, isASCIILower, isASCIIDigit,
      Bool.or_eq_true, Bool.and_eq_true, decide_eq_true_eq, beq_iff_eq]
    omega
  · rw [if_neg hl]
    exact h

theorem isASCIIUpper_toUpperByte {c : Nat} (h : isASCIILetter c = true) :
    isASCIIUpper (toUpperByte c) = true := by
  unfold toUpperByte
  by_cases hl : isASCIILower c = true
  · rw [if_pos hl, xor_32_of_lower hl]
    simp only [isASCIILower, Bool.and_eq_true, decide_eq_true_eq] at hl
    simp only [isASCIIUpper, Bool.and_eq_true, decide_eq_true_eq]
    omega
  · rw [if_neg hl]
    simp only [isASCIILetter, Bool.or_eq_true] at h
    rcases h with h | h
    · exact h
    · exact absurd h hl

/-- Every byte of `camel s` is an identifier byte when every byte of `s` is. -/
theorem camel_all_ident (s : GoString) (h : ∀ c ∈ s, isIdentByte c = true) :
    ∀ x ∈ camel s, isIdentByte x = true := by
  intro x hx
  rcases mem_camel s x hx with h88 | ⟨c, hc, hxc | hxc⟩
  · subst h88; decide
  · subst hxc; exact h _ hc
  · subst hxc; exact isIdentByte_toUpperByte (h _ hc)

theorem isIdentByte_fold {c : Nat} (h : isNameByte c = true) :
    isIdentByte (if c = 45 ∨ c = 46 then 95 else c) = true := by
  by_cases h1 : c = 45 ∨ c = 46
  · rw [if_pos h1]; decide
  · rw [if_neg h1]
    simp only [isNameByte, Bool.or_eq_true, beq_iff_eq] at h
    simp only [isIdentByte, Bool.or_eq_true, beq_iff_eq]
    rcases h with ((h | h) | h) | h
    · exact Or.inl (Or.inl h)
    · exact Or.inl (Or.inr h)
    · exact absurd (Or.inl h) h1
    · exact absurd (Or.inr h) h1

/-- C10, amended: when the file name is `b` or `d/b`, `b` is made of ASCII letters, digits,
hyphens and dots, and `b` with every `.proto` removed is not empty and does not begin with a
digit, `FileName` returns a non-empty string whose first byte is an ASCII upper-case letter
and whose every byte is an ASCII letter, a digit or an underscore. -/
theorem C10_fileName_capitalized_ident (file : File) (d b : GoString)
    (hName : file.ProtoName = b ∨ file.ProtoName = d ++ ascii "/" ++ b)
    (hBytes : b.all isNameByte = true)
    (hStem : stringsReplaceAll b (ascii ".proto") (ascii "") ≠ [])
    (hDigit : ∀ c, (stringsReplaceAll b (ascii ".proto") (ascii "")).head? = some c →
      isASCIIDigit c = false) :
    ∃ r, FileName file = some r ∧ isCapitalizedIdent r = true := by
  have hAll : ∀ c ∈ b, isNameByte c = true := by simpa using hBytes
  have hb : b ≠ [] := by
    intro hb
    subst hb
    exact hStem (by decide)
  have h47 : 47 ∉ b := by
    intro hm
    have := hAll 47 hm
    revert this
    decide
  have hbase : pathBase file.ProtoName = b := by
    rcases hName with h | h
    · rw [h]; exact pathBase_plain b hb h47
    · rw [h]; exact pathBase_dir d b hb h47
  have hStemBytes : ∀ c ∈ stringsReplaceAll b (ascii ".proto") (ascii ""), isNameByte c = true := by
    intro c hc
    rcases mem_stringsReplaceAll _ _ _ _ hc with h | h
    · exact hAll c h
    · have e : ascii "" = [] := by decide
      rw [e] at h
      exact absurd h (List.not_mem_nil c)
  refine ⟨camel (foldedName file), CamelCase_eq _, ?_⟩
  have hIdent : ∀ x ∈ camel (foldedName file), isIdentByte x = true := by
    apply camel_all_ident
    intro c hc
    rw [foldedName_eq_map, hbase] at hc
    obtain ⟨c0, hc0, rfl⟩ := List.mem_map.1 hc
    exact isIdentByte_fold (hStemBytes c0 hc0)
  have hall : (camel (foldedName file)).all isIdentByte = true := by
    simpa using hIdent
  rw [foldedName_eq_map, hbase] at hall ⊢
  cases hs : stringsReplaceAll b (ascii ".proto") (ascii "") with
  | nil => exact absurd hs hStem
  | cons c rest =>
    rw [hs] at hall
    have hcName : isNameByte c = true := hStemBytes c (by rw [hs]; exact List.mem_cons_self _ _)
    have hcDigit : isASCIIDigit c = false := hDigit c (by rw [hs]; rfl)
    simp only [List.map_cons] at hall ⊢
    rw [camel_cons] at hall ⊢
    by_cases h1 : c = 45 ∨ c = 46
    · simp only [h1, if_true] at hall ⊢
      simp only [isCapitalizedIdent, hall, Bool.and_true]
      decide
    · simp only [h1, if_false] at hall ⊢
      have hc95 : c ≠ 95 := by
        intro h
        subst h
        revert hcName
        decide
      have hLetter : isASCIILetter c = true := by
        simp only [isNameByte, Bool.or_eq_true, beq_iff_eq] at hcName
        rcases hcName with ((h | h) | h) | h
        · exact h
        · rw [hcDigit] at h; exact absurd h Bool.false_ne_true
        · exact absurd (Or.inl h) h1
        · exact absurd (Or.inr h) h1
      simp only [hc95, if_false, hcDigit, Bool.false_eq_true] at hall ⊢
      simp only [isCapitalizedIdent, hall, Bool.and_true]
      exact isASCIIUpper_toUpperByte hLetter

/-- C10, amended, at the file name `my-file.proto`. -/
theorem C10_fileName_capitalized_ident_witness :
    (ascii "my-file.proto").all isNameByte = true ∧
    ∃ r, FileName myFile = some r ∧ isCapitalizedIdent r = true :=
  ⟨by decide,
    C10_fileName_capitalized_ident myFile [] (ascii "my-file.proto") (Or.inl (by decide))
      (by decide) (by decide)
      (by
        intro c h
        have e : (stringsReplaceAll (ascii "my-file.proto") (ascii ".proto") (ascii "")).head? =
            some 109 := by decide
        rw [e] at h
        cases h
        decide)⟩

/-! ## The first byte and the word boundary -/

theorem camel_eq_nil_iff (s : GoString) : camel s = [] ↔ s = [] := by
  cases s with
  | nil => simp [camel]
  | cons c rest =>
    rw [camel_cons]
    split_ifs <;> simp

/-- C12: `CamelCase(s)` is empty exactly when `s` is empty; for a non-empty `s` with first
byte `c`, the first byte of the result is `X` if `c` is an underscore, the upper-case form
`c - 32` if `c` is a lower-case letter, and `c` otherwise; it is never an underscore or a
lower-case letter. -/
theorem C12_first_byte_of_camelCase :
    (∀ s, CamelCase s = some [] ↔ s = []) ∧
    (∀ (c : Nat) (rest : GoString), ∃ r tail, CamelCase (c :: rest) = some (r :: tail) ∧
      r = (if c = 95 then 88 else if isASCIILower c then c - 32 else c) ∧
      r ≠ 95 ∧ isASCIILower r = false) := by
  constructor
  · intro s
    rw [CamelCase_eq]
    simp only [Option.some.injEq]
    exact camel_eq_nil_iff s
  · intro c rest
    rw [CamelCase_eq]
    have hh := camel_head (c :: rest)
    rw [camel_cons] at hh ⊢
    by_cases h95 : c = 95
    · rw [if_pos h95] at hh ⊢
      exact ⟨88, _, rfl, by simp [h95], by decide, by decide⟩
    · rw [if_neg h95] at hh ⊢
      by_cases hg : isASCIIDigit c = true
      · rw [if_pos hg] at hh ⊢
        have := hh c rfl
        exact ⟨c, _, rfl, by simp [h95, digit_not_lower hg], this.2, this.1⟩
      · rw [if_neg hg] at hh ⊢
        have := hh (toUpperByte c) rfl
        refine ⟨toUpperByte c, _, rfl, ?_, this.2, this.1⟩
        rw [if_neg h95]
        unfold toUpperByte
        by_cases hl : isASCIILower c = true
        · rw [if_pos hl, if_pos hl, xor_32_of_lower hl]
        · rw [if_neg hl, if_neg hl]

theorem camelRun_append_underscore_lower (c : Nat) (b : GoString) (hc : isASCIILower c = true) :
    ∀ (a : GoString) (st : Bool),
      camelRun st (a ++ 95 :: c :: b) = camelRun st a ++ camelRun false (c :: b) := by
  intro a
  induction a with
  | nil =>
    intro st
    have : (st && isASCIILower 95) = false := by cases st <;> decide
    simp [camelRun, this, hc]
  | cons x rest ih =>
    intro st
    have hhead : ((rest ++ 95 :: c :: b).head?.map isASCIILower = some true) ↔
        (rest.head?.map isASCIILower = some true) := by
      cases rest with
      | nil => simp; decide
      | cons y ys => simp
    simp only [List.cons_append]
    rw [camelRun, camelRun]
    simp only [hhead, ih]
    split_ifs <;> simp

theorem camel_append_underscore_lower (a b : GoString) (c : Nat) (ha : a ≠ [])
    (hc : isASCIILower c = true) :
    camel (a ++ 95 :: c :: b) = camel a ++ camel (c :: b) := by
  have hc95 : c ≠ 95 := by
    intro h; subst h; revert hc; decide
  have hcb : camel (c :: b) = camelRun false (c :: b) := by
    rw [camel, if_neg hc95]
  cases a with
  | nil => exact absurd rfl ha
  | cons x rest =>
    rw [hcb]
    simp only [List.cons_append]
    rw [camel, camel]
    by_cases hx : x = 95
    · rw [if_pos hx, if_pos hx, camelRun_append_underscore_lower c b hc]
      simp
    · rw [if_neg hx, if_neg hx]
      have := camelRun_append_underscore_lower c b hc (x :: rest) false
      simpa using this

/-- C13: for a non-empty `a`, a lower-case letter `c` and any `b`,
`CamelCase(a ++ "_" ++ [c] ++ b) = CamelCase(a) ++ CamelCase([c] ++ b)`: the underscore is
dropped, and `CamelCase([c] ++ b)` begins with the upper-case form `c - 32` of `c`. -/
theorem C13_interior_underscore_is_word_boundary (a b : GoString) (c : Nat) (ha : a ≠ [])
    (hc : isASCIILower c = true) :
    ∃ ra rb, CamelCase (a ++ ascii "_" ++ [c] ++ b) = some (ra ++ rb) ∧
      CamelCase a = some ra ∧ CamelCase ([c] ++ b) = some rb ∧ rb.head? = some (c - 32) := by
  have e : a ++ ascii "_" ++ [c] ++ b = a ++ 95 :: c :: b := by
    have : ascii "_" = [95] := by decide
    rw [this]; simp
  have hc95 : c ≠ 95 := by
    intro h; subst h; revert hc; decide
  have hd : isASCIIDigit c = false := by
    simp only [isASCIILower, Bool.and_eq_true, decide_eq_true_eq] at hc
    simp only [isASCIIDigit, Bool.and_eq_false_iff, decide_eq_false_iff_not]
    omega
  refine ⟨camel a, camel ([c] ++ b), ?_, CamelCase_eq a, CamelCase_eq _, ?_⟩
  · rw [e, CamelCase_eq, camel_append_underscore_lower a b c ha hc]
    rfl
  · simp only [List.singleton_append]
    rw [camel_cons, if_neg hc95, hd]
    simp [toUpperByte, hc, xor_32_of_lower hc]

/-- C13 at `a = "my"`, `c = 'f'`, `b = "ield"`: `my_field` becomes `MyField`. -/
theorem C13_interior_underscore_is_word_boundary_witness :
    ∃ ra rb, CamelCase (ascii "my" ++ ascii "_" ++ [102] ++ ascii "ield") = some (ra ++ rb) ∧
      CamelCase (ascii "my") = some ra ∧ CamelCase ([102] ++ ascii "ield") = some rb ∧
      rb.head? = some (102 - 32) :=
  C13_interior_underscore_is_word_boundary (ascii "my") (ascii "ield") 102 (by decide) (by decide)

/-! ## The fixed points of CamelCase -/

theorem length_camelRun_le : ∀ (l : GoString) (st : Bool), (camelRun st l).length ≤ l.length := by
  intro l
  induction l with
  | nil => intro st; simp [camelRun]
  | cons c rest ih =>
    intro st
    rw [camelRun]
    split_ifs
    · simpa using ih true
    · exact Nat.le_succ_of_le (ih false)
    · simpa using ih false
    · simpa using ih true

theorem head_camelRun_false : ∀ (l : GoString) (x : Nat),
    (camelRun false l).head? = some x → isASCIILower x = false := by
  intro l
  induction l with
  | nil => intro x h; simp [camelRun] at h
  | cons c rest ih =>
    intro x h
    rw [camelRun] at h
    simp only [Bool.false_and, Bool.false_eq_true, if_false] at h
    split_ifs at h with h1 h2
    · exact ih x h
    · simp only [List.head?_cons, Option.some.injEq] at h
      exact h ▸ digit_not_lower h2
    · simp only [List.head?_cons, Option.some.injEq] at h
      exact h ▸ toUpperByte_not_lower c

theorem camelRun_true_eq_false (l : GoString)
    (h : ∀ x, l.head? = some x → isASCIILower x = false) : camelRun true l = camelRun false l := by
  cases l with
  | nil => rfl
  | cons c rest =>
    have hc : isASCIILower c = false := h c rfl
    rw [camelRun, camelRun]
    simp [hc]

theorem toUpperByte_of_not_lower {c : Nat} (h : isASCIILower c = false) : toUpperByte c = c := by
  simp [toUpperByte, h]

theorem toUpperByte_eq_self_iff (c : Nat) : toUpperByte c = c ↔ isASCIILower c = false := by
  constructor
  · intro h
    rw [← h]
    exact toUpperByte_not_lower c
  · exact toUpperByte_of_not_lower

theorem toUpperByte_eq_underscore {c : Nat} (h : toUpperByte c = 95) : c = 95 := by
  by_contra hc
  exact toUpperByte_ne_underscore hc h

theorem toUpperByte_not_digit {c : Nat} (h : isASCIIDigit c = false) :
    isASCIIDigit (toUpperByte c) = false := by
  unfold toUpperByte
  by_cases hl : isASCIILower c = true
  · rw [if_pos hl, xor_32_of_lower hl]
    simp only [isASCIILower, Bool.and_eq_true, decide_eq_true_eq] at hl
    simp only [isASCIIDigit, Bool.and_eq_false_iff, decide_eq_false_iff_not]
    omega
  · rw [if_neg hl]
    exact h

/-- The head of `camelRun true rest` is not lower-case when the head of `rest` is not. -/
theorem head_camelRun_true_of_not_lower (rest : GoString)
    (h : ¬ (rest.head?.map isASCIILower = some true)) :
    ¬ ((camelRun true rest).head?.map isASCIILower = some true) := by
  cases rest with
  | nil => simp [camelRun]
  | cons d tl =>
    have hd : isASCIILower d = false := by
      simpa using h
    rw [camelRun_true_eq_false (d :: tl) (by intro x hx; cases hx; exact hd)]
    intro hcon
    cases hh : (camelRun false (d :: tl)).head? with
    | none => rw [hh] at hcon; simp at hcon
    | some y =>
      rw [hh] at hcon
      have := head_camelRun_false _ _ hh
      simp [this] at hcon

/-- Scanning a scanned string again, from the same state, changes nothing. -/
theorem camelRun_idem : ∀ (l : GoString) (st : Bool),
    camelRun st (camelRun st l) = camelRun st l := by
  intro l
  induction l with
  | nil => intro st; simp [camelRun]
  | cons c rest ih =>
    intro st
    by_cases h1 : (st && isASCIILower c) = true
    · have e : camelRun st (c :: rest) = c :: camelRun true rest := by
        rw [camelRun, if_pos h1]
      have hst : st = true := by
        cases st
        · simp at h1
        · rfl
      subst hst
      rw [e, camelRun, if_pos h1, ih true]
    · by_cases h2 : c = 95 ∧ (rest.head?.map isASCIILower) = some true
      · have e : camelRun st (c :: rest) = camelRun false rest := by
          rw [camelRun, if_neg h1, if_pos h2]
        rw [e]
        cases st with
        | false => exact ih false
        | true =>
          rw [camelRun_true_eq_false _ (head_camelRun_false rest)]
          exact ih false
      · by_cases h3 : isASCIIDigit c = true
        · have e : camelRun st (c :: rest) = c :: camelRun false rest := by
            rw [camelRun, if_neg h1, if_neg h2, if_pos h3]
          have hc95 : c ≠ 95 := by
            intro h; subst h; revert h3; decide
          rw [e, camelRun, if_neg h1, if_neg (fun h => hc95 h.1), if_pos h3, ih false]
        · have e : camelRun st (c :: rest) = toUpperByte c :: camelRun true rest := by
            rw [camelRun, if_neg h1, if_neg h2, if_neg h3]
          have hu : isASCIILower (toUpperByte c) = false := toUpperByte_not_lower c
          have h1u : ¬ (st && isASCIILower (toUpperByte c)) = true := by simp [hu]
          have h2u : ¬ (toUpperByte c = 95 ∧
              ((camelRun true rest).head?.map isASCIILower) = some true) := by
            rintro ⟨hu95, hhead⟩
            have hc95 := toUpperByte_eq_underscore hu95
            have hrest : ¬ (rest.head?.map isASCIILower = some true) := fun hr => h2 ⟨hc95, hr⟩
            exact head_camelRun_true_of_not_lower rest hrest hhead
          have h3u : ¬ isASCIIDigit (toUpperByte c) = true := by
            rw [toUpperByte_not_digit (by simpa using h3)]
            exact Bool.false_ne_true
          rw [e, camelRun, if_neg h1u, if_neg h2u, if_neg h3u, toUpperByte_of_not_lower hu, ih true]

theorem camel_idem (s : GoString) : camel (camel s) = camel s := by
  cases s with
  | nil => rfl
  | cons c rest =>
    by_cases hc : c = 95
    · have e : camel (c :: rest) = 88 :: camelRun false rest := by rw [camel, if_pos hc]
      rw [e, camel_cons, if_neg (by decide), if_neg (by decide),
        camelRun_true_eq_false _ (head_camelRun_false rest), camelRun_idem]
      rfl
    · have e : camel (c :: rest) = camelRun false (c :: rest) := by rw [camel, if_neg hc]
      have hne : camel (c :: rest) ≠ [] := by
        rw [Ne, camel_eq_nil_iff]; simp
      cases hz : camel (c :: rest) with
      | nil => exact absurd hz hne
      | cons z tl =>
        have hz95 : z ≠ 95 := (camel_head (c :: rest) z (by rw [hz]; rfl)).2
        rw [camel, if_neg hz95, ← hz, e, camelRun_idem]

theorem noLowerAfterSeparator_cons (c : Nat) (rest : GoString) :
    noLowerAfterSeparator (c :: rest) = true ↔
      ¬ ((c = 95 ∨ isASCIIDigit c = true) ∧ (rest.head?.map isASCIILower) = some true) ∧
      noLowerAfterSeparator rest = true := by
  rw [noLowerAfterSeparator]
  cases rest with
  | nil => simp
  | cons d tl =>
    simp only [List.head?_cons, Option.map_some', Option.some.injEq, Bool.and_eq_true,
      Bool.not_eq_true', Bool.and_eq_false_iff, Bool.or_eq_false_iff, beq_eq_false_iff_ne, ne_eq]
    constructor
    · rintro ⟨h, h2⟩
      refine ⟨?_, h2⟩
      rintro ⟨hc, hd⟩
      rcases h with ⟨h95, hg⟩ | hl
      · rcases hc with hc | hc
        · exact h95 hc
        · rw [hg] at hc; exact Bool.false_ne_true hc
      · rw [hl] at hd; exact Bool.false_ne_true hd
    · rintro ⟨h, h2⟩
      refine ⟨?_, h2⟩
      by_cases hd : isASCIILower d = true
      · left
        constructor
        · intro hc; exact h ⟨Or.inl hc, hd⟩
        · cases hg : isASCIIDigit c with
          | false => rfl
          | true => exact absurd ⟨Or.inr hg, hd⟩ h
      · right
        simpa using hd

/-- The strings a scan leaves unchanged. -/
theorem camelRun_eq_self_iff : ∀ (l : GoString) (st : Bool),
    camelRun st l = l ↔
      (st = true ∨ ¬ ((l.head?.map isASCIILower) = some true)) ∧
      noLowerAfterSeparator l = true := by
  intro l
  induction l with
  | nil => intro st; simp [camelRun, noLowerAfterSeparator]
  | cons c rest ih =>
    intro st
    rw [noLowerAfterSeparator_cons]
    simp only [List.head?_cons, Option.map_some', Option.some.injEq]
    by_cases h1 : (st && isASCIILower c) = true
    · have hst : st = true ∧ isASCIILower c = true := by simpa using h1
      have hc95 : c ≠ 95 := by
        intro h; subst h; exact absurd hst.2 (by decide)
      have hg : ¬ isASCIIDigit c = true := by
        intro hg
        rw [digit_not_lower hg] at hst
        exact Bool.false_ne_true hst.2
      rw [camelRun, if_pos h1]
      simp only [List.cons.injEq, true_and]
      rw [ih true]
      constructor
      · rintro ⟨_, h⟩
        exact ⟨Or.inl hst.1, fun hh => hh.1.elim hc95 hg, h⟩
      · rintro ⟨_, _, h⟩
        exact ⟨Or.inl rfl, h⟩
    · by_cases h2 : c = 95 ∧ (rest.head?.map isASCIILower) = some true
      · rw [camelRun, if_neg h1, if_pos h2]
        constructor
        · intro h
          have := length_camelRun_le rest false
          rw [h] at this
          simp at this
        · rintro ⟨_, h, _⟩
          exact absurd ⟨Or.inl h2.1, h2.2⟩ h
      · by_cases h3 : isASCIIDigit c = true
        · rw [camelRun, if_neg h1, if_neg h2, if_pos h3]
          simp only [List.cons.injEq, true_and]
          rw [ih false]
          have hl : isASCIILower c = false := digit_not_lower h3
          constructor
          · rintro ⟨h, h'⟩
            have hn : ¬ ((rest.head?.map isASCIILower) = some true) := by
              rcases h with h | h
              · exact absurd h Bool.false_ne_true
              · exact h
            exact ⟨Or.inr (by simp [hl]), fun hh => hn hh.2, h'⟩
          · rintro ⟨_, h, h'⟩
            exact ⟨Or.inr (fun hh => h ⟨Or.inr h3, hh⟩), h'⟩
        · rw [camelRun, if_neg h1, if_neg h2, if_neg h3]
          simp only [List.cons.injEq]
          rw [ih true, toUpperByte_eq_self_iff]
          constructor
          · rintro ⟨hl, _, h'⟩
            refine ⟨Or.inr (by simp [hl]), ?_, h'⟩
            rintro ⟨hc | hc, hh⟩
            · exact h2 ⟨hc, hh⟩
            · exact h3 hc
          · rintro ⟨hs, _, h'⟩
            refine ⟨?_, Or.inl rfl, h'⟩
            cases hl : isASCIILower c with
            | false => rfl
            | true =>
              rcases hs with hs | hs
              · exact absurd (by simp [hs, hl]) h1
              · exact absurd hl hs

/-- The fixed points of `camel` are the strings of the shape `isCamelCased`. -/
theorem camel_eq_self_iff (r : GoString) : camel r = r ↔ isCamelCased r = true := by
  cases r with
  | nil => simp [camel, isCamelCased, noLowerAfterSeparator]
  | cons c rest =>
    simp only [isCamelCased, List.head?_cons, Bool.and_eq_true, bne_iff_ne, ne_eq,
      Bool.not_eq_true']
    by_cases hc : c = 95
    · rw [camel, if_pos hc]
      constructor
      · intro h
        rw [hc] at h
        simp at h
      · rintro ⟨⟨h, _⟩, _⟩
        exact absurd hc h
    · rw [camel, if_neg hc, camelRun_eq_self_iff]
      simp only [List.head?_cons, Option.map_some', Option.some.injEq]
      constructor
      · rintro ⟨h, h'⟩
        refine ⟨⟨hc, ?_⟩, h'⟩
        rcases h with h | h
        · exact absurd h Bool.false_ne_true
        · simpa using h
      · rintro ⟨⟨_, h⟩, h'⟩
        exact ⟨Or.inr (by simp [h]), h'⟩

theorem isCamelCased_camel (s : GoString) : isCamelCased (camel s) = true :=
  (camel_eq_self_iff (camel s)).1 (camel_idem s)

/-- C19: `CamelCase` is idempotent on every input, `CamelCase(CamelCase(s)) = CamelCase(s)`;
the strings it leaves unchanged are exactly those that do not begin with an underscore or a
lower-case letter and have no lower-case letter immediately after an underscore or a digit,
and every result of `CamelCase` is such a string. -/
theorem C19_camelCase_idempotent :
    (∀ s, ∃ r, CamelCase s = some r ∧ CamelCase r = some r ∧ isCamelCased r = true) ∧
    (∀ r, CamelCase r = some r ↔ isCamelCased r = true) := by
  constructor
  · intro s
    refine ⟨camel s, CamelCase_eq s, ?_, isCamelCased_camel s⟩
    rw [CamelCase_eq, camel_idem]
  · intro r
    rw [CamelCase_eq]
    simp only [Option.some.injEq]
    exact camel_eq_self_iff r

/-! ## PascalCase strings -/

/-- C11 fails as stated: `A1b` consists of ASCII letters and digits and begins with an
upper-case letter, yet `CamelCase` turns it into `A1B`. -/
theorem C11_counterexample :
    isPascalCase (ascii "A1b") = true ∧ CamelCase (ascii "A1b") = some (ascii "A1B") ∧
      CamelCase (ascii "A1b") ≠ some (ascii "A1b") := by
  decide

theorem noLowerAfterSeparator_of_noLowerAfterDigit : ∀ s : GoString,
    (∀ c ∈ s, c ≠ 95) → noLowerAfterDigit s = true → noLowerAfterSeparator s = true := by
  intro s
  induction s with
  | nil => intro _ _; rfl
  | cons c rest ih =>
    intro h95 hd
    rw [noLowerAfterSeparator_cons]
    rw [noLowerAfterDigit] at hd
    simp only [Bool.and_eq_true] at hd
    refine ⟨?_, ih (fun x hx => h95 x (List.mem_cons_of_mem _ hx)) hd.2⟩
    rintro ⟨hc | hc, hh⟩
    · exact h95 c (List.mem_cons_self _ _) hc
    · have h1 := hd.1
      cases rest with
      | nil => simp at hh
      | cons d tl =>
        simp only [List.head?_cons, Option.map_some', Option.some.injEq] at hh
        simp [hc, hh] at h1

/-- C11, amended: for a string of ASCII letters and digits that begins with an upper-case
letter and has no lower-case letter immediately after a digit, applying `CamelCase` once
or twice returns the string itself. -/
theorem C11_camelCase_fixes_pascalCase (s : GoString) (hPascal : isPascalCase s = true)
    (hDigit : noLowerAfterDigit s = true) :
    CamelCase s = some s ∧ (CamelCase s).bind CamelCase = some s := by
  have hcc : isCamelCased s = true := by
    simp only [isPascalCase, Bool.and_eq_true, List.all_eq_true, Bool.or_eq_true] at hPascal
    obtain ⟨hhead, hall⟩ := hPascal
    have h95 : ∀ c ∈ s, c ≠ 95 := by
      intro c hc h
      subst h
      rcases hall 95 hc with h | h <;> revert h <;> decide
    simp only [isCamelCased, Bool.and_eq_true]
    refine ⟨?_, noLowerAfterSeparator_of_noLowerAfterDigit s h95 hDigit⟩
    cases s with
    | nil => rfl
    | cons c rest =>
      simp only [List.head?_cons] at hhead ⊢
      simp only [isASCIIUpper, Bool.and_eq_true, decide_eq_true_eq] at hhead
      simp only [isASCIILower, Bool.and_eq_true, bne_iff_ne, ne_eq, Bool.not_eq_true',
        Bool.and_eq_false_iff, decide_eq_false_iff_not]
      omega
  have h1 : CamelCase s = some s := by
    rw [CamelCase_eq, (camel_eq_self_iff s).2 hcc]
  exact ⟨h1, by rw [h1]; exact h1⟩

/-- C11, amended, at `MyField2`. -/
theorem C11_camelCase_fixes_pascalCase_witness :
    isPascalCase (ascii "MyField2") = true ∧ noLowerAfterDigit (ascii "MyField2") = true ∧
    CamelCase (ascii "MyField2") = some (ascii "MyField2") :=
  ⟨by decide, by decide,
    (C11_camelCase_fixes_pascalCase (ascii "MyField2") (by decide) (by decide)).1⟩

/-! ## The removal of the extension -/

theorem occurrences_cons (old : GoString) (c : Nat) (s : GoString) :
    occurrences old (c :: s) = (if old.isPrefixOf (c :: s) then 1 else 0) + occurrences old s := by
  unfold occurrences
  rw [List.tails, List.filter_cons]
  split_ifs
  · simp only [List.length_cons]; omega
  · simp

theorem occurrences_nil (old : GoString) (h : old ≠ []) : occurrences old [] = 0 := by
  cases old with
  | nil => exact absurd rfl h
  | cons o tl => rfl

theorem joinWith_cons_cons (sep : GoString) (c : Nat) (p : GoString) (ps : List GoString) :
    joinWith sep ((c :: p) :: ps) = c :: joinWith sep (p :: ps) := by
  cases ps with
  | nil => rfl
  | cons q qs => simp [joinWith]

theorem joinWith_prefix (sep p : GoString) (ps : List GoString) :
    p <+: joinWith sep (p :: ps) := by
  cases ps with
  | nil => exact List.prefix_refl p
  | cons q qs =>
    rw [joinWith, List.append_assoc]
    exact List.prefix_append _ _

/-- One left-to-right pass of `replaceFrom` with an empty replacement deletes separators
between pieces none of which contains `old`. -/
theorem replaceFrom_pieces (old : GoString) (hold : old ≠ []) : ∀ (s : GoString) (k : Nat),
    ∃ pieces : List GoString, pieces ≠ [] ∧ s.drop k = joinWith old pieces ∧
      replaceFrom old [] k s = pieces.flatten ∧ ∀ p ∈ pieces, occurrences old p = 0 := by
  intro s
  induction s with
  | nil =>
    intro k
    refine ⟨[[]], by simp, by simp [joinWith], by simp [replaceFrom], ?_⟩
    intro p hp
    simp only [List.mem_singleton] at hp
    subst hp
    exact occurrences_nil old hold
  | cons c rest ih =>
    intro k
    cases k with
    | succ k =>
      obtain ⟨pieces, h1, h2, h3, h4⟩ := ih k
      exact ⟨pieces, h1, by simpa using h2, by rw [replaceFrom]; exact h3, h4⟩
    | zero =>
      by_cases hp : old.isPrefixOf (c :: rest) = true
      · obtain ⟨pieces, h1, h2, h3, h4⟩ := ih (old.length - 1)
        cases pieces with
        | nil => exact absurd rfl h1
        | cons p ps =>
          refine ⟨[] :: p :: ps, by simp, ?_, ?_, ?_⟩
          · rw [List.isPrefixOf_iff_prefix] at hp
            obtain ⟨t, ht⟩ := hp
            cases old with
            | nil => exact absurd rfl hold
            | cons o tl =>
              simp only [List.cons_append, List.cons.injEq] at ht
              obtain ⟨hoc, hrest⟩ := ht
              have hdrop : rest.drop tl.length = t := by
                rw [← hrest, List.drop_left]
              simp only [List.length_cons, Nat.add_sub_cancel] at h2
              rw [hdrop] at h2
              simp only [List.drop_zero, joinWith, List.nil_append, List.cons_append]
              rw [← h2, ← hrest, hoc]
          · rw [replaceFrom, if_pos hp, h3]
            simp
          · intro x hx
            rcases List.mem_cons.1 hx with hx | hx
            · subst hx
              exact occurrences_nil old hold
            · exact h4 x hx
      · obtain ⟨pieces, h1, h2, h3, h4⟩ := ih 0
        cases pieces with
        | nil => exact absurd rfl h1
        | cons p ps =>
          simp only [List.drop_zero] at h2
          refine ⟨(c :: p) :: ps, by simp, ?_, ?_, ?_⟩
          · simp only [List.drop_zero]
            rw [joinWith_cons_cons, ← h2]
          · rw [replaceFrom, if_neg hp, h3]
            simp
          · intro x hx
            rcases List.mem_cons.1 hx with hx | hx
            · subst hx
              rw [occurrences_cons, h4 p (List.mem_cons_self _ _)]
              have hnp : ¬ old.isPrefixOf (c :: p) = true := by
                intro hcp
                apply hp
                rw [List.isPrefixOf_iff_prefix] at hcp ⊢
                have hpre : c :: p <+: c :: rest := by
                  rw [h2]
                  obtain ⟨t, ht⟩ := joinWith_prefix old p ps
                  exact ⟨t, by rw [← ht]; rfl⟩
                exact hcp.trans hpre
              rw [if_neg hnp]
            · exact h4 x (List.mem_cons_of_mem _ hx)

/-- C14 fails as stated: for the file name `a.pro.prototo` the string left by the removal
of the extension is `a.proto`, which contains `.proto`. -/
theorem C14_counterexample :
    extensionRemoved dottedNameFile = ascii "a.proto" ∧
      occurrences (ascii ".proto") (extensionRemoved dottedNameFile) = 1 := by
  decide

/-- C14, amended: the removal step deletes, in one pass, every occurrence of `.proto` in
the base name: the base name is `p0 ++ ".proto" ++ p1 ++ ... ++ ".proto" ++ pn` with no
piece containing `.proto`, and the string after the step is `p0 ++ p1 ++ ... ++ pn`; the
folded name is that string with hyphens and dots replaced. -/
theorem C14_extension_removed_in_one_pass (file : File) :
    ∃ pieces : List GoString, pieces ≠ [] ∧
      pathBase file.ProtoName = joinWith (ascii ".proto") pieces ∧
      extensionRemoved file = pieces.flatten ∧
      (∀ p ∈ pieces, occurrences (ascii ".proto") p = 0) ∧
      foldedName file =
        stringsReplaceAll (stringsReplaceAll (extensionRemoved file) (ascii "-") (ascii "_"))
          (ascii ".") (ascii "_") := by
  obtain ⟨pieces, h1, h2, h3, h4⟩ :=
    replaceFrom_pieces (ascii ".proto") (by decide) (pathBase file.ProtoName) 0
  refine ⟨pieces, h1, by simpa using h2, ?_, h4, rfl⟩
  have e : ascii "" = [] := by decide
  rw [extensionRemoved, stringsReplaceAll, e]
  exact h3

/-! ## Hyphens, dots and collisions -/

theorem camel_mem_of_not_letter (s : GoString) (x : Nat) (hx : x < 65) (hm : x ∈ camel s) :
    x ∈ s := by
  rcases mem_camel s x hm with h88 | ⟨c, hc, h | h⟩
  · omega
  · exact h ▸ hc
  · exact (toUpperByte_eq_of_not_letter (Or.inl hx) h) ▸ hc

theorem not_mem_foldedName (file : File) : 45 ∉ foldedName file ∧ 46 ∉ foldedName file := by
  rw [foldedName_eq_map]
  constructor <;>
  · intro hm
    obtain ⟨c, _, hc⟩ := List.mem_map.1 hm
    by_cases h : c = 45 ∨ c = 46
    · rw [if_pos h] at hc
      omega
    · rw [if_neg h] at hc
      omega

/-- C15: the prefix `FileName` returns contains neither a hyphen nor a dot: after the
removal of the extension every hyphen and every dot is replaced by an underscore, and
`CamelCase` puts a hyphen or a dot in its result only where its input has one. -/
theorem C15_fileName_has_no_hyphen_or_dot (file : File) :
    (∃ r, FileName file = some r ∧ 45 ∉ r ∧ 46 ∉ r) ∧
    foldedName file = (extensionRemoved file).map (fun c => if c = 45 ∨ c = 46 then 95 else c) ∧
    (∀ s, ∃ r, CamelCase s = some r ∧ (45 ∈ r → 45 ∈ s) ∧ (46 ∈ r → 46 ∈ s)) := by
  refine ⟨⟨camel (foldedName file), CamelCase_eq _, ?_, ?_⟩, foldedName_eq_map file, ?_⟩
  · intro hm
    exact (not_mem_foldedName file).1 (camel_mem_of_not_letter _ 45 (by decide) hm)
  · intro hm
    exact (not_mem_foldedName file).2 (camel_mem_of_not_letter _ 46 (by decide) hm)
  · intro s
    exact ⟨camel s, CamelCase_eq s, camel_mem_of_not_letter s 45 (by decide),
      camel_mem_of_not_letter s 46 (by decide)⟩

/-- C16: name collisions exist. The distinct strings `a_b` and `aB` have the same
`CamelCase` result, so `CamelCase` is not injective; the files `a-b.proto`, `a_b.proto`
and `aB.proto` all get the prefix `AB`, and two of them, generated into the same package,
produce the same lines, hence the same two global declarations. -/
theorem C16_name_collisions :
    (ascii "a_b" ≠ ascii "aB" ∧ CamelCase (ascii "a_b") = some (ascii "AB") ∧
      CamelCase (ascii "aB") = some (ascii "AB") ∧ ¬ Function.Injective CamelCase) ∧
    (ascii "a-b.proto" ≠ ascii "a_b.proto" ∧ ascii "a-b.proto" ≠ ascii "aB.proto" ∧
      ascii "a_b.proto" ≠ ascii "aB.proto" ∧
      FileName { myFile with ProtoName := ascii "a-b.proto" } = some (ascii "AB") ∧
      FileName { myFile with ProtoName := ascii "a_b.proto" } = some (ascii "AB") ∧
      FileName { myFile with ProtoName := ascii "aB.proto" } = some (ascii "AB")) ∧
    (generateFile qualifyByBase { myFile with ProtoName := ascii "a-b.proto" }).map
        (fun g => g.lines) =
      (generateFile qualifyByBase { myFile with ProtoName := ascii "aB.proto" }).map
        (fun g => g.lines) := by
  refine ⟨⟨by decide, by decide, by decide, ?_⟩, by decide, by decide⟩
  intro hinj
  have h : CamelCase (ascii "a_b") = CamelCase (ascii "aB") := by decide
  exact absurd (hinj h) (by decide)

/-! ## Totality of CamelCase -/

/-- C17: `CamelCase` returns a result for every input. In the model every read `s[i]` is
checked and a loop that outruns its fuel fails; neither happens: the lower-case run loop
started below `len(s)` ends at an index `j` with `i ≤ j < len(s)`, the underscore test
never fails, and the main loop, which continues at `i+1` or `j+1`, ends within `len(s)+1`
tests of its condition. -/
theorem C17_camelCase_never_fails :
    (∀ s, ∃ r, CamelCase s = some r) ∧
    (∀ (s : GoString) (fuel i : Nat) (t : GoString), i < s.length → s.length - i ≤ fuel →
      ∃ j u, lowerRun s fuel i t = some (j, u) ∧ i ≤ j ∧ j < s.length) ∧
    (∀ (s : GoString) (i c : Nat), ∃ b, skipUnderscore s i c = some b) ∧
    (∀ (s : GoString) (fuel i : Nat) (t : GoString), i ≤ s.length → s.length - i < fuel →
      ∃ r, scan s fuel i t = some r) := by
  refine ⟨fun s => ⟨_, CamelCase_eq s⟩, ?_, fun s i c => ⟨_, skipUnderscore_eq s i c⟩, ?_⟩
  · intro s fuel i t hi hf
    refine ⟨_, _, lowerRun_eq s fuel i t hi hf, Nat.le_add_right _ _, ?_⟩
    have := length_takeWhile_le' isASCIILower (s.drop (i + 1))
    rw [List.length_drop] at this
    omega
  · intro s fuel i t hi hf
    exact ⟨_, scan_eq s fuel i t hi hf⟩

/-- C17 at the worked example of the doc comment, with the loops started as `CamelCase`
starts them. -/
theorem C17_camelCase_never_fails_witness :
    (∃ r, CamelCase (ascii "_my_field_name_2") = some r) ∧
    (∃ j u, lowerRun (ascii "_my_field_name_2") 16 1 [88, 77] = some (j, u) ∧ 1 ≤ j ∧ j < 16) ∧
    (∃ r, scan (ascii "_my_field_name_2") 17 1 [88] = some r) :=
  ⟨C17_camelCase_never_fails.1 _,
    C17_camelCase_never_fails.2.1 (ascii "_my_field_name_2") 16 1 [88, 77] (by decide) (by decide),
    C17_camelCase_never_fails.2.2.2 (ascii "_my_field_name_2") 17 1 [88] (by decide) (by decide)⟩

/-! ## The number of lines -/

theorem length_flatMap_methodPair (q : GoIdent → GoString) (mn un : GoString)
    (names : List GoString) :
    (names.flatMap (methodPair q mn un)).length = 9 * names.length := by
  induction names with
  | nil => rfl
  | cons t rest ih =>
    simp only [List.flatMap_cons, List.length_append, ih, List.length_cons]
    simp only [methodPair, List.length_cons, List.length_nil]
    omega

theorem countMethod_outputLines (q : GoIdent → GoString) (file : File) (m : Method) :
    countMethod m (outputLines q file) = (preorder (prune file.Messages)).length := by
  simp only [countMethod, methodsOf_outputLines, countMethod_pairs]

/-- C18: for a file with `k` messages that receive methods, `generateFile` prints exactly
`6 + 9 * k` lines: the header, the package line, nine lines for each such message, and the
four lines of the var block; when no message receives methods the text is the header, the
package line and the var block, so the two globals are still declared. -/
theorem C18_line_count (q : GoIdent → GoString) (file : File) :
    ∃ g k namePrefix, generateFile q file = some g ∧ FileName file = some namePrefix ∧
      k = (preorder (prune file.Messages)).length ∧
      countMethod Method.MarshalJSON g.lines = k ∧ countMethod Method.UnmarshalJSON g.lines = k ∧
      g.lines.length = 6 + 9 * k ∧
      g.lines =
        [ascii "// Code generated by protoc-gen-jsonshim. DO NOT EDIT.",
          ascii "package " ++ file.GoPackageName] ++
        (preorder (prune file.Messages)).flatMap
          (methodPair q (namePrefix ++ ascii "Marshaler") (namePrefix ++ ascii "Unmarshaler")) ++
        varBlock q namePrefix ∧
      (∀ t, (methodPair q (namePrefix ++ ascii "Marshaler")
        (namePrefix ++ ascii "Unmarshaler") t).length = 9) ∧
      (varBlock q namePrefix).length = 4 ∧
      (k = 0 → g.lines =
        [ ascii "// Code generated by protoc-gen-jsonshim. DO NOT EDIT.",
          ascii "package " ++ file.GoPackageName,
          ascii "var (",
          namePrefix ++ ascii "Marshaler" ++ ascii " = &" ++
            q ⟨ascii "Marshaler", ascii "github.com/golang/protobuf/jsonpb"⟩ ++ ascii "\x7b\x7d",
          namePrefix ++ ascii "Unmarshaler" ++ ascii " = &" ++
            q ⟨ascii "Unmarshaler", ascii "github.com/golang/protobuf/jsonpb"⟩ ++
            ascii "\x7bAllowUnknownFields: true\x7d",
          ascii ")" ]) := by
  refine ⟨_, _, camel (foldedName file), generateFile_eq q file, CamelCase_eq _, rfl,
    countMethod_outputLines q file _, countMethod_outputLines q file _, ?_, rfl,
    fun t => rfl, rfl, ?_⟩
  · show (outputLines q file).length = _
    unfold outputLines
    simp only [List.length_append, length_flatMap_methodPair, List.length_cons, List.length_nil,
      varBlock]
    omega
  · intro hk
    have hnil : preorder (prune file.Messages) = [] := List.length_eq_zero.1 hk
    show outputLines q file = _
    unfold outputLines
    rw [hnil]
    rfl

end JsonShim
